import Mathlib

/-!
# Verification of the Next.js script parser engine

Shallow embedding of `src/parser.ts`: the bracket matcher, push-call
extractor, payload decoder (JSON), payload classifier, tree builder,
aggregator and formatters, together with theorems checking the
natural-language specification against the code.

JavaScript values produced by `JSON.parse` are modelled by the closed sum
type `JVal`; JSON numbers are modelled exactly as a decimal mantissa and a
power-of-ten denominator (`num m e` denotes `m / 10^e`).
-/

namespace NextJS

/-- JSON-shaped JavaScript value. `num m e` denotes the decimal `m / 10^e`. -/
inductive JVal where
  | null : JVal
  | bool  (b : Bool) : JVal
  | num   (mantissa : Int) (exp : Nat) : JVal
  | str   (s : String) : JVal
  | arr   (elems : List JVal) : JVal
  | obj   (fields : List (String × JVal)) : JVal
deriving Repr

/-- JavaScript truthiness of a `JVal`. -/
def JVal.truthy : JVal → Bool
  | .null => false
  | .bool b => b
  | .num m _ => m != 0
  | .str s => s != ""
  | .arr _ => true
  | .obj _ => true

mutual
/-- Size measure used for termination of the tree builder. -/
def jvalSize : JVal → Nat
  | .null => 1
  | .bool _ => 1
  | .num _ _ => 1
  | .str _ => 1
  | .arr xs => 3 + jvalListSize xs
  | .obj fs => 3 + jvalFieldsSize fs

def jvalListSize : List JVal → Nat
  | [] => 0
  | x :: xs => jvalSize x + jvalListSize xs

def jvalFieldsSize : List (String × JVal) → Nat
  | [] => 0
  | (_, v) :: fs => jvalSize v + jvalFieldsSize fs
end

theorem jvalSize_pos (v : JVal) : 0 < jvalSize v := by
  cases v <;> simp [jvalSize]

theorem jvalListSize_of_mem {x : JVal} {xs : List JVal} (h : x ∈ xs) :
    jvalSize x ≤ jvalListSize xs := by
  induction xs with
  | nil => cases h
  | cons y ys ih =>
    cases h with
    | head => simp [jvalListSize]
    | tail _ h =>
      have := ih h
      simp only [jvalListSize]
      omega

theorem jvalFieldsSize_of_mem {k : String} {v : JVal} {fs : List (String × JVal)}
    (h : (k, v) ∈ fs) : jvalSize v ≤ jvalFieldsSize fs := by
  induction fs with
  | nil => cases h
  | cons f gs ih =>
    cases h with
    | head => simp [jvalFieldsSize]
    | tail _ h =>
      have := ih h
      obtain ⟨k', v'⟩ := f
      simp only [jvalFieldsSize]
      omega

/-- JSON whitespace characters (accepted by `JSON.parse` between tokens). -/
def isJsonWs (c : Char) : Bool :=
  c = ' ' || c = '\t' || c = '\n' || c = '\r'

/-- JavaScript `\s` for the ASCII range (as used by `/\s/` in the extractor). -/
def jsIsSpace (c : Char) : Bool :=
  c = ' ' || c = '\t' || c = '\n' || c = '\r' ||
  c = Char.ofNat 0x0b || c = Char.ofNat 0x0c || c = Char.ofNat 0xa0

/-! ## JSON text: rendering (`JSON.stringify`) -/

/-- Decimal digit to its character. -/
def digitToChar (d : Nat) : Char := Char.ofNat (48 + d)

/-- Little-endian decimal digits of `n` (with fuel; `fuel = n` suffices for `n ≥ 1`). -/
def natDigitsAux : Nat → Nat → List Char
  | 0, _ => []
  | _ + 1, 0 => []
  | fuel + 1, n + 1 => digitToChar ((n + 1) % 10) :: natDigitsAux fuel ((n + 1) / 10)

/-- Decimal digit characters of `n`, most significant first, no leading zeros. -/
def natDigitChars (n : Nat) : List Char :=
  if n = 0 then ['0'] else (natDigitsAux n n).reverse

/-- Render a nonnegative JSON number `n / 10^e` in plain decimal notation. -/
def renderNumNat (n : Nat) (e : Nat) : List Char :=
  let digs0 := natDigitChars n
  let digs := if digs0.length ≤ e then List.replicate (e + 1 - digs0.length) '0' ++ digs0 else digs0
  let intPart := digs.take (digs.length - e)
  let fracPart := digs.drop (digs.length - e)
  intPart ++ (if e = 0 then [] else '.' :: fracPart)

/-- Render a JSON number `m / 10^e` in plain decimal notation. -/
def renderNum (m : Int) (e : Nat) : List Char :=
  (if m < 0 then ['-'] else []) ++ renderNumNat m.natAbs e

/-- Lowercase hexadecimal digit character. -/
def hexDigitChar (n : Nat) : Char :=
  if n < 10 then Char.ofNat (48 + n) else Char.ofNat (87 + n)

/-- `JSON.stringify` escaping of one string character. -/
def escapeChar (c : Char) : List Char :=
  if c = '"' then ['\\', '"']
  else if c = '\\' then ['\\', '\\']
  else if c = '\n' then ['\\', 'n']
  else if c = '\r' then ['\\', 'r']
  else if c = '\t' then ['\\', 't']
  else if c = Char.ofNat 8 then ['\\', 'b']
  else if c = Char.ofNat 12 then ['\\', 'f']
  else if c.toNat < 32 then
    ['\\', 'u', '0', '0', hexDigitChar (c.toNat / 16), hexDigitChar (c.toNat % 16)]
  else [c]

/-- Render a JSON string literal, including the surrounding quotes. -/
def renderString (s : String) : List Char :=
  '"' :: (s.data.map escapeChar).flatten ++ ['"']

/-- Two spaces of indentation per level, as produced by `JSON.stringify(v, null, 2)`. -/
def indentChars (n : Nat) : List Char := List.replicate (2 * n) ' '

mutual
/-- `JSON.stringify(v, null, 2)`: pretty JSON text at indentation level `ind`. -/
def renderPretty : JVal → Nat → List Char
  | .num m e, _ => renderNum m e
  | .str s, _ => renderString s
  | .null, _ => ['n', 'u', 'l', 'l']
  | .bool true, _ => ['t', 'r', 'u', 'e']
  | .bool false, _ => ['f', 'a', 'l', 's', 'e']
  | .arr [], _ => ['[', ']']
  | .arr (x :: xs), ind =>
      '[' :: '\n' :: renderPrettyItems (x :: xs) (ind + 1) ++
        '\n' :: indentChars ind ++ [']']
  | .obj [], _ => ['{', '}']
  | .obj (f :: fs), ind =>
      '{' :: '\n' :: renderPrettyFields (f :: fs) (ind + 1) ++
        '\n' :: indentChars ind ++ ['}']

/-- Comma-and-newline separated array items, each on its own indented line. -/
def renderPrettyItems : List JVal → Nat → List Char
  | [], _ => []
  | [x], ind => indentChars ind ++ renderPretty x ind
  | x :: y :: xs, ind =>
      indentChars ind ++ renderPretty x ind ++
        ',' :: '\n' :: renderPrettyItems (y :: xs) ind

/-- Comma-and-newline separated object fields, each on its own indented line. -/
def renderPrettyFields : List (String × JVal) → Nat → List Char
  | [], _ => []
  | [(k, v)], ind => indentChars ind ++ renderString k ++ ':' :: ' ' :: renderPretty v ind
  | (k, v) :: g :: fs, ind =>
      indentChars ind ++ renderString k ++ ':' :: ' ' :: renderPretty v ind ++
        ',' :: '\n' :: renderPrettyFields (g :: fs) ind
end

mutual
/-- Compact `JSON.stringify(v)` (no whitespace). -/
def jsonStringifyChars : JVal → List Char
  | .num m e => renderNum m e
  | .str s => renderString s
  | .arr xs => '[' :: jsonStringifyItems xs ++ [']']
  | .obj fs => '{' :: jsonStringifyFields fs ++ ['}']
  | .bool true => ['t', 'r', 'u', 'e']
  | .bool false => ['f', 'a', 'l', 's', 'e']
  | .null => ['n', 'u', 'l', 'l']

def jsonStringifyItems : List JVal → List Char
  | [] => []
  | [x] => jsonStringifyChars x
  | x :: y :: xs => jsonStringifyChars x ++ ',' :: jsonStringifyItems (y :: xs)

def jsonStringifyFields : List (String × JVal) → List Char
  | [] => []
  | [(k, v)] => renderString k ++ ':' :: jsonStringifyChars v
  | (k, v) :: g :: fs =>
      renderString k ++ ':' :: jsonStringifyChars v ++ ',' :: jsonStringifyFields (g :: fs)
end

/-- Compact `JSON.stringify` as a `String`. -/
def jsonStringify (v : JVal) : String := String.mk (jsonStringifyChars v)

/-- Assignment to an object key, as JavaScript object semantics: replace the
value in place if the key exists (keeping the first occurrence's position),
otherwise append the new entry. -/
def objInsert (fields : List (String × JVal)) (k : String) (v : JVal) :
    List (String × JVal) :=
  match fields with
  | [] => [(k, v)]
  | (k', v') :: rest =>
      if k' = k then (k', v) :: rest else (k', v') :: objInsert rest k v

/-! ## JSON text: parsing (`JSON.parse`) -/

/-- Drop leading JSON whitespace. -/
def skipWs (cs : List Char) : List Char := cs.dropWhile isJsonWs

/-- Numeric value of a list of decimal digit characters, most significant first. -/
def parseDigitsVal (ds : List Char) : Nat :=
  ds.foldl (fun acc c => acc * 10 + (c.toNat - 48)) 0

/-- JSON number exponent part (`e`/`E` already consumed). -/
def parseExpSigned (m e : Nat) (cs : List Char) : Option (Nat × Nat × List Char) :=
  let (sgn, r) :=
    match cs with
    | '+' :: t => (false, t)
    | '-' :: t => (true, t)
    | _ => (false, cs)
  let (xs, rest) := r.span Char.isDigit
  if xs = [] then none
  else
    let k := parseDigitsVal xs
    if sgn then some (m, e + k, rest)
    else if k ≤ e then some (m, e - k, rest)
    else some (m * 10 ^ (k - e), 0, rest)

/-- JSON number optional exponent part. -/
def parseExpPart (m e : Nat) (cs : List Char) : Option (Nat × Nat × List Char) :=
  match cs with
  | 'e' :: r => parseExpSigned m e r
  | 'E' :: r => parseExpSigned m e r
  | _ => some (m, e, cs)

/-- Unsigned JSON number: integer part (no leading zeros), optional fraction,
optional exponent; returns mantissa, power-of-ten denominator exponent, rest. -/
def parseNumberNonNeg (cs : List Char) : Option (Nat × Nat × List Char) :=
  let (ds, rest1) := cs.span Char.isDigit
  if ds = [] then none
  else if 1 < ds.length && ds.head? == some '0' then none
  else
    match rest1 with
    | '.' :: r =>
        let (fs, rest2) := r.span Char.isDigit
        if fs = [] then none
        else parseExpPart (parseDigitsVal (ds ++ fs)) fs.length rest2
    | _ => parseExpPart (parseDigitsVal ds) 0 rest1

/-- JSON number with optional leading minus sign. -/
def parseNumber (cs : List Char) : Option (JVal × List Char) :=
  match cs with
  | '-' :: t =>
      (parseNumberNonNeg t).map (fun r => (JVal.num (-(r.1 : Int)) r.2.1, r.2.2))
  | _ => (parseNumberNonNeg cs).map (fun r => (JVal.num (r.1 : Int) r.2.1, r.2.2))

/-- Hexadecimal digit value. -/
def hexVal (c : Char) : Option Nat :=
  if '0' ≤ c ∧ c ≤ '9' then some (c.toNat - 48)
  else if 'a' ≤ c ∧ c ≤ 'f' then some (c.toNat - 87)
  else if 'A' ≤ c ∧ c ≤ 'F' then some (c.toNat - 55)
  else none

/-- Value of four hexadecimal digits. -/
def hex4 (a b c d : Char) : Option Nat := do
  let x ← hexVal a
  let y ← hexVal b
  let z ← hexVal c
  let w ← hexVal d
  pure (((x * 16 + y) * 16 + z) * 16 + w)

/-- Single-character JSON string escapes. -/
def escDecode (c : Char) : Option Char :=
  if c = '"' then some '"'
  else if c = '\\' then some '\\'
  else if c = '/' then some '/'
  else if c = 'b' then some (Char.ofNat 8)
  else if c = 'f' then some (Char.ofNat 12)
  else if c = 'n' then some '\n'
  else if c = 'r' then some '\r'
  else if c = 't' then some '\t'
  else none

mutual
/-- JSON string body after the opening quote: characters up to the closing
quote, handling escapes, `\uXXXX` and UTF-16 surrogate pairs; raw control
characters are rejected as `JSON.parse` does. -/
def parseStrChars : List Char → Option (List Char × List Char)
  | [] => none
  | '"' :: rest => some ([], rest)
  | '\\' :: 'u' :: a :: b :: c :: d :: rest =>
    (match hex4 a b c d with
     | none => none
     | some n =>
       if 0xD800 ≤ n ∧ n < 0xDC00 then parseStrSurrogate n rest
       else (parseStrChars rest).map (fun p => (Char.ofNat n :: p.1, p.2)))
  | '\\' :: e :: rest =>
    (match escDecode e with
     | some c => (parseStrChars rest).map (fun p => (c :: p.1, p.2))
     | none => none)
  | c :: rest =>
    if c.toNat < 32 then none
    else (parseStrChars rest).map (fun p => (c :: p.1, p.2))
termination_by cs => (cs.length, 0)

/-- Continuation after a high surrogate `\uXXXX` of value `n`: pair it with a
following low surrogate escape, or emit the lone unit and continue. -/
def parseStrSurrogate (n : Nat) : List Char → Option (List Char × List Char)
  | '\\' :: 'u' :: a2 :: b2 :: c2 :: d2 :: rest2 =>
    (match hex4 a2 b2 c2 d2 with
     | some n2 =>
       if 0xDC00 ≤ n2 ∧ n2 < 0xE000 then
         (parseStrChars rest2).map (fun p =>
           (Char.ofNat (0x10000 + (n - 0xD800) * 0x400 + (n2 - 0xDC00)) :: p.1, p.2))
       else
         (parseStrChars ('\\' :: 'u' :: a2 :: b2 :: c2 :: d2 :: rest2)).map
           (fun p => (Char.ofNat n :: p.1, p.2))
     | none =>
       (parseStrChars ('\\' :: 'u' :: a2 :: b2 :: c2 :: d2 :: rest2)).map
         (fun p => (Char.ofNat n :: p.1, p.2)))
  | cs => (parseStrChars cs).map (fun p => (Char.ofNat n :: p.1, p.2))
termination_by cs => (cs.length, 1)
end

mutual
/-- JSON value parser with fuel (structurally recursive on the fuel). -/
def parseVal (fuel : Nat) (cs : List Char) : Option (JVal × List Char) :=
  match fuel with
  | 0 => none
  | fuel + 1 =>
    match skipWs cs with
    | 'n' :: 'u' :: 'l' :: 'l' :: rest => some (.null, rest)
    | 't' :: 'r' :: 'u' :: 'e' :: rest => some (.bool true, rest)
    | 'f' :: 'a' :: 'l' :: 's' :: 'e' :: rest => some (.bool false, rest)
    | '"' :: rest => (parseStrChars rest).map (fun p => (.str (String.mk p.1), p.2))
    | '[' :: rest => parseArrItems fuel rest
    | '{' :: rest => parseObjItems fuel rest
    | cs1 => parseNumber cs1

/-- Array items after the opening `[`. -/
def parseArrItems (fuel : Nat) (cs : List Char) : Option (JVal × List Char) :=
  match fuel with
  | 0 => none
  | fuel + 1 =>
    match skipWs cs with
    | ']' :: rest => some (.arr [], rest)
    | cs1 => parseArrLoop fuel cs1 []

/-- Array item loop: one value, then `,` to continue or `]` to finish. -/
def parseArrLoop (fuel : Nat) (cs : List Char) (acc : List JVal) :
    Option (JVal × List Char) :=
  match fuel with
  | 0 => none
  | fuel + 1 =>
    match parseVal fuel cs with
    | none => none
    | some (v, rest) =>
      match skipWs rest with
      | ',' :: rest2 => parseArrLoop fuel rest2 (acc ++ [v])
      | ']' :: rest2 => some (.arr (acc ++ [v]), rest2)
      | _ => none

/-- Object fields after the opening `{`. -/
def parseObjItems (fuel : Nat) (cs : List Char) : Option (JVal × List Char) :=
  match fuel with
  | 0 => none
  | fuel + 1 =>
    match skipWs cs with
    | '}' :: rest => some (.obj [], rest)
    | cs1 => parseObjLoop fuel cs1 []

/-- Object field loop: a key string, `:`, a value, then `,` or `}`; duplicate
keys overwrite in place as JavaScript property assignment does. -/
def parseObjLoop (fuel : Nat) (cs : List Char) (acc : List (String × JVal)) :
    Option (JVal × List Char) :=
  match fuel with
  | 0 => none
  | fuel + 1 =>
    match skipWs cs with
    | '"' :: r =>
      (match parseStrChars r with
       | none => none
       | some (k, r2) =>
         match skipWs r2 with
         | ':' :: r3 =>
           (match parseVal fuel r3 with
            | none => none
            | some (v, r4) =>
              match skipWs r4 with
              | ',' :: r5 => parseObjLoop fuel r5 (objInsert acc (String.mk k) v)
              | '}' :: r5 => some (.obj (objInsert acc (String.mk k) v), r5)
              | _ => none)
         | _ => none)
    | _ => none
end

/-- `JSON.parse`: parse a whole string as one JSON value (the fuel is more
than sufficient for any input of this length). -/
def jsonParse (s : String) : Except String JVal :=
  match parseVal (3 * s.data.length + 9) s.data with
  | none => .error "Unexpected end of JSON input"
  | some (v, rest) =>
      if skipWs rest = [] then .ok v else .error "Unexpected token in JSON"

/-! ## Round trip: helper lemmas -/

theorem skipWs_cons_of_not {c : Char} {t : List Char} (h : isJsonWs c = false) :
    skipWs (c :: t) = c :: t := by
  simp [skipWs, List.dropWhile_cons, h]

theorem skipWs_append_of_ws {a : List Char} (b : List Char)
    (h : ∀ c ∈ a, isJsonWs c = true) : skipWs (a ++ b) = skipWs b := by
  induction a with
  | nil => rfl
  | cons c t ih =>
    have hc : isJsonWs c = true := h c (by simp)
    simp only [List.cons_append, skipWs, List.dropWhile_cons, hc, if_true]
    exact ih fun c hc => h c (by simp [hc])

theorem skipWs_skipWs (cs : List Char) : skipWs (skipWs cs) = skipWs cs := by
  induction cs with
  | nil => rfl
  | cons c t ih =>
    by_cases h : isJsonWs c = true
    · simp [skipWs, List.dropWhile_cons, h] at ih ⊢; exact ih
    · simp only [Bool.not_eq_true] at h
      rw [skipWs_cons_of_not h, skipWs_cons_of_not h]

theorem indentChars_ws {n : Nat} : ∀ c ∈ indentChars n, isJsonWs c = true := by
  intro c hc
  simp only [indentChars, List.mem_replicate] at hc
  simp [hc.2, isJsonWs]

/-- Little-endian value of a digit character list. -/
def valLE : List Char → Nat
  | [] => 0
  | c :: t => (c.toNat - 48) + 10 * valLE t

theorem digitToChar_isDigit : ∀ d < 10, (digitToChar d).isDigit = true := by decide

theorem digitToChar_ne_zero : ∀ d < 10, 1 ≤ d → digitToChar d ≠ '0' := by decide

theorem digitToChar_toNat : ∀ d < 10, (digitToChar d).toNat = 48 + d := by decide

theorem natDigitsAux_nil (fuel : Nat) : natDigitsAux fuel 0 = [] := by
  cases fuel <;> rfl

theorem natDigitsAux_ne_nil {fuel n : Nat} (h1 : 1 ≤ n) (h2 : n ≤ fuel) :
    natDigitsAux fuel n ≠ [] := by
  cases fuel with
  | zero => omega
  | succ f =>
    cases n with
    | zero => omega
    | succ k => simp [natDigitsAux]

theorem natDigitsAux_valLE : ∀ fuel n, n ≤ fuel → valLE (natDigitsAux fuel n) = n := by
  intro fuel
  induction fuel with
  | zero => intro n h; interval_cases n; simp [natDigitsAux, valLE]
  | succ f ih =>
    intro n h
    cases n with
    | zero => simp [natDigitsAux, valLE]
    | succ k =>
      simp only [natDigitsAux, valLE]
      rw [ih ((k + 1) / 10) (by omega)]
      rw [digitToChar_toNat ((k + 1) % 10) (by omega)]
      omega

theorem natDigitsAux_digits : ∀ fuel n c, c ∈ natDigitsAux fuel n → c.isDigit = true := by
  intro fuel
  induction fuel with
  | zero => intro n c h; simp [natDigitsAux] at h
  | succ f ih =>
    intro n c h
    cases n with
    | zero => simp [natDigitsAux] at h
    | succ k =>
      simp only [natDigitsAux, List.mem_cons] at h
      rcases h with h | h
      · subst h; exact digitToChar_isDigit _ (by omega)
      · exact ih _ _ h

theorem natDigitsAux_getLast {fuel n : Nat} (h1 : 1 ≤ n) (h2 : n ≤ fuel) :
    ∃ d, (natDigitsAux fuel n).getLast? = some (digitToChar d) ∧ 1 ≤ d ∧ d < 10 := by
  induction fuel generalizing n with
  | zero => omega
  | succ f ih =>
    cases n with
    | zero => omega
    | succ k =>
      simp only [natDigitsAux]
      by_cases hq : (k + 1) / 10 = 0
      · rw [hq, natDigitsAux_nil]
        refine ⟨(k + 1) % 10, ?_, by omega, by omega⟩
        simp
      · have hle : (k + 1) / 10 ≤ f := by omega
        obtain ⟨d, hd, h1d, h2d⟩ := ih (n := (k + 1) / 10) (by omega) hle
        refine ⟨d, ?_, h1d, h2d⟩
        rw [List.getLast?_cons, hd]
        simp

theorem parseDigitsVal_reverse (l : List Char) :
    parseDigitsVal l.reverse = valLE l := by
  suffices h : ∀ acc, l.reverse.foldl (fun acc c => acc * 10 + (c.toNat - 48)) acc
      = acc * 10 ^ l.length + valLE l by
    simpa [parseDigitsVal] using h 0
  induction l with
  | nil => intro acc; simp [valLE]
  | cons c t ih =>
    intro acc
    simp only [List.reverse_cons, List.foldl_append, List.foldl_cons, List.foldl_nil,
      ih, valLE, List.length_cons]
    ring

/-- The decimal digit characters of `n` are digits, parse back to `n`, are
nonempty, and have no leading zero unless `n = 0`. -/
theorem natDigitChars_spec (n : Nat) :
    (∀ c ∈ natDigitChars n, c.isDigit = true) ∧
    parseDigitsVal (natDigitChars n) = n ∧
    natDigitChars n ≠ [] ∧
    (n ≠ 0 → ∀ c, (natDigitChars n).head? = some c → c ≠ '0') := by
  by_cases h : n = 0
  · subst h
    refine ⟨by decide, by decide, by decide, by simp⟩
  · have h1 : 1 ≤ n := by omega
    constructor
    · intro c hc
      simp only [natDigitChars, if_neg h, List.mem_reverse] at hc
      exact natDigitsAux_digits _ _ _ hc
    constructor
    · simp only [natDigitChars, if_neg h]
      rw [parseDigitsVal_reverse]
      exact natDigitsAux_valLE n n le_rfl
    constructor
    · simp only [natDigitChars, if_neg h, ne_eq, List.reverse_eq_nil_iff]
      exact natDigitsAux_ne_nil h1 le_rfl
    · intro _ c hc
      simp only [natDigitChars, if_neg h] at hc
      rw [List.head?_reverse] at hc
      obtain ⟨d, hd, h1d, h2d⟩ := natDigitsAux_getLast h1 (le_refl n)
      rw [hd] at hc
      injection hc with hc
      rw [← hc]
      exact digitToChar_ne_zero d h2d h1d

theorem span_append_of_all {p : Char → Bool} {l : List Char} (r : List Char)
    (h : ∀ c ∈ l, p c = true) :
    List.span p (l ++ r) = (l ++ (List.span p r).1, (List.span p r).2) := by
  induction l with
  | nil => simp
  | cons c t ih =>
    have hc : p c = true := h c (by simp)
    simp only [List.span_eq_take_drop] at ih ⊢
    simp only [List.cons_append, List.takeWhile_cons, List.dropWhile_cons, hc, if_true]
    have := ih fun c hc => h c (by simp [hc])
    simp only [Prod.mk.injEq] at this ⊢
    exact ⟨by rw [this.1], this.2⟩

theorem span_of_head_not {p : Char → Bool} {r : List Char}
    (h : ∀ c, r.head? = some c → p c = false) :
    List.span p r = ([], r) := by
  cases r with
  | nil => rfl
  | cons c t =>
    have := h c rfl
    simp [List.span_eq_take_drop, List.takeWhile_cons, List.dropWhile_cons, this]

theorem parseDigitsVal_replicate_zero (k : Nat) (l : List Char) :
    parseDigitsVal (List.replicate k '0' ++ l) = parseDigitsVal l := by
  have h0 : List.foldl (fun acc c => acc * 10 + (c.toNat - 48)) 0 (List.replicate k '0') = 0 := by
    induction k with
    | zero => rfl
    | succ j ih =>
      rw [List.replicate_succ, List.foldl_cons]
      have h1 : 0 * 10 + ('0'.toNat - 48) = 0 := by decide
      rw [h1]
      exact ih
  simp [parseDigitsVal, List.foldl_append, h0]

/-! ## Round trip: numbers -/

/-- The text after a rendered number must not begin with a character that
could extend the number token. -/
def numStop (cs : List Char) : Bool :=
  match cs with
  | [] => true
  | c :: _ => !(c.isDigit || c = '.' || c = 'e' || c = 'E')

theorem numStop_head {rest : List Char} (h : numStop rest = true) :
    ∀ c, rest.head? = some c →
      c.isDigit = false ∧ c ≠ '.' ∧ c ≠ 'e' ∧ c ≠ 'E' := by
  intro c hc
  cases rest with
  | nil => simp at hc
  | cons x t =>
    injection hc with hc
    subst hc
    simp only [numStop, Bool.not_eq_true', Bool.or_eq_false_iff] at h
    refine ⟨h.1.1.1, ?_, ?_, ?_⟩ <;> · intro hx; subst hx; simp_all

/-- Structure of `renderNumNat`: an all-digits integer part with no improper
leading zero, and (for `e ≠ 0`) a dot and an all-digits fraction part of
length `e`, parsing back to `n`. -/
theorem renderNumNat_struct (n e : Nat) :
    ∃ ip fp, renderNumNat n e = ip ++ (if e = 0 then [] else '.' :: fp) ∧
      (∀ c ∈ ip, c.isDigit = true) ∧ ip ≠ [] ∧
      (¬(1 < ip.length ∧ ip.head? = some '0')) ∧
      (∀ c ∈ fp, c.isDigit = true) ∧ fp.length = e ∧
      parseDigitsVal (ip ++ fp) = n := by
  obtain ⟨hdig, hval, hne, hlead⟩ := natDigitChars_spec n
  have hlenpos : 0 < (natDigitChars n).length := List.length_pos.mpr hne
  by_cases hpad : (natDigitChars n).length ≤ e
  · -- padded case: integer part is a single zero
    have he : e ≠ 0 := by omega
    set k := e + 1 - (natDigitChars n).length with hk
    have hk1 : 1 ≤ k := by omega
    have hdigs : List.replicate k '0' ++ natDigitChars n
        = '0' :: (List.replicate (k - 1) '0' ++ natDigitChars n) := by
      conv_lhs => rw [show k = (k - 1) + 1 by omega]
      simp [List.replicate_succ]
    have hlen : (List.replicate k '0' ++ natDigitChars n).length = e + 1 := by
      simp; omega
    refine ⟨['0'], List.replicate (k - 1) '0' ++ natDigitChars n, ?_, ?_, by simp, ?_, ?_, ?_, ?_⟩
    · simp only [renderNumNat, if_pos hpad, hlen, if_neg he]
      rw [hdigs]
      simp [Nat.add_sub_cancel_left]
    · simp
    · simp
    · intro c hc
      rcases List.mem_append.mp hc with hc | hc
      · simp only [List.mem_replicate] at hc
        rw [hc.2]; decide
      · exact hdig c hc
    · simp; omega
    · show parseDigitsVal (['0'] ++ (List.replicate (k - 1) '0' ++ natDigitChars n)) = n
      have : ['0'] ++ (List.replicate (k - 1) '0' ++ natDigitChars n)
          = List.replicate k '0' ++ natDigitChars n := by
        rw [hdigs]; simp
      rw [this, parseDigitsVal_replicate_zero]
      exact hval
  · -- unpadded case: split the digit characters of n at length - e
    push_neg at hpad
    refine ⟨(natDigitChars n).take ((natDigitChars n).length - e),
            (natDigitChars n).drop ((natDigitChars n).length - e), ?_, ?_, ?_, ?_, ?_, ?_, ?_⟩
    · simp only [renderNumNat, if_neg (by omega : ¬ (natDigitChars n).length ≤ e)]
    · intro c hc
      exact hdig c (List.mem_of_mem_take hc)
    · intro habs
      have := congrArg List.length habs
      simp only [List.length_take, List.length_nil] at this
      omega
    · rintro ⟨hlen, hhd⟩
      simp only [List.length_take] at hlen
      have h2 : 2 ≤ (natDigitChars n).length := by omega
      have hn0 : n ≠ 0 := by
        intro h0
        subst h0
        simp [natDigitChars] at h2
      have hhd' : (natDigitChars n).head? = some '0' := by
        have htk : ∀ (l : List Char) (k : Nat), 1 ≤ k → (l.take k).head? = l.head? := by
          intro l k hk
          cases l <;> cases k <;> simp_all
        rw [← htk (natDigitChars n) ((natDigitChars n).length - e) (by omega)]
        exact hhd
      exact hlead hn0 '0' hhd' rfl
    · intro c hc
      exact hdig c (List.mem_of_mem_drop hc)
    · simp only [List.length_drop]
      omega
    · rw [List.take_append_drop]
      exact hval

/-- Unsigned number round trip. -/
theorem beqHeadZero_false {ip : List Char} (hiplead : ¬(1 < ip.length ∧ ip.head? = some '0')) :
    (decide (1 < ip.length) && ip.head? == some '0') = false := by
  rw [Bool.and_eq_false_iff]
  by_cases hl : 1 < ip.length
  · right
    rw [beq_eq_false_iff_ne]
    intro heq
    exact hiplead ⟨hl, heq⟩
  · left; simpa using hl

theorem parseNumberNonNeg_render (n e : Nat) (rest : List Char)
    (h : numStop rest = true) :
    parseNumberNonNeg (renderNumNat n e ++ rest) = some (n, e, rest) := by
  obtain ⟨ip, fp, hrender, hip, hipne, hiplead, hfp, hfplen, hpv⟩ := renderNumNat_struct n e
  have hstop := numStop_head h
  by_cases he : e = 0
  · subst he
    have hr2 : renderNumNat n 0 = ip := by simpa using hrender
    rw [hr2]
    have hspan : List.span Char.isDigit (ip ++ rest) = (ip, rest) := by
      rw [span_append_of_all rest hip, span_of_head_not (fun c hc => (hstop c hc).1)]
      simp
    simp only [parseNumberNonNeg, hspan]
    rw [if_neg hipne, beqHeadZero_false hiplead]
    have hfp0 : fp = [] := List.length_eq_zero.mp hfplen
    subst hfp0
    simp only [List.append_nil] at hpv
    rw [if_neg Bool.false_ne_true]
    split
    · exact absurd rfl (hstop '.' rfl).2.1
    · simp only [parseExpPart]
      split
      · exact absurd rfl (hstop 'e' rfl).2.2.1
      · exact absurd rfl (hstop 'E' rfl).2.2.2
      · rw [hpv]
  · rw [if_neg he] at hrender
    rw [hrender]
    have hassoc : (ip ++ '.' :: fp) ++ rest = ip ++ '.' :: (fp ++ rest) := by simp
    rw [hassoc]
    have hspan : List.span Char.isDigit (ip ++ '.' :: (fp ++ rest))
        = (ip, '.' :: (fp ++ rest)) := by
      rw [span_append_of_all _ hip, span_of_head_not (fun c hc => by
        injection hc with hc; rw [← hc]; decide)]
      simp
    have hspan2 : List.span Char.isDigit (fp ++ rest) = (fp, rest) := by
      rw [span_append_of_all rest hfp, span_of_head_not (fun c hc => (hstop c hc).1)]
      simp
    simp only [parseNumberNonNeg, hspan, hspan2]
    rw [if_neg hipne, beqHeadZero_false hiplead, if_neg Bool.false_ne_true]
    rw [if_neg (show ¬ fp = [] by
      intro habs
      rw [habs] at hfplen
      simp at hfplen
      omega)]
    simp only [parseExpPart]
    split
    · exact absurd rfl (hstop 'e' rfl).2.2.1
    · exact absurd rfl (hstop 'E' rfl).2.2.2
    · rw [hpv, hfplen]

/-- Signed number round trip. -/
theorem parseNumber_renderNum (m : Int) (e : Nat) (rest : List Char)
    (h : numStop rest = true) :
    parseNumber (renderNum m e ++ rest) = some (.num m e, rest) := by
  obtain ⟨ip, fp, hrender, hip, hipne, -, -, -, -⟩ := renderNumNat_struct m.natAbs e
  obtain ⟨c, t, hct⟩ : ∃ c t, renderNumNat m.natAbs e = c :: t := by
    cases hc : renderNumNat m.natAbs e with
    | nil =>
      rw [hc] at hrender
      cases ip with
      | nil => exact absurd rfl hipne
      | cons a b => simp at hrender
    | cons c t => exact ⟨c, t, rfl⟩
  have hcdig : c.isDigit = true := by
    rw [hct] at hrender
    cases ip with
    | nil => exact absurd rfl hipne
    | cons a b =>
      have : a = c := by
        simpa using congrArg List.head? hrender.symm
      subst this
      exact hip a (by simp)
  by_cases hm : m < 0
  · simp only [renderNum, if_pos hm, List.cons_append, List.nil_append]
    show parseNumber ('-' :: (renderNumNat m.natAbs e ++ rest)) = _
    simp only [parseNumber, parseNumberNonNeg_render m.natAbs e rest h, Option.map_some']
    have hm' : -((m.natAbs : Nat) : Int) = m := by omega
    rw [hm']
  · simp only [renderNum, if_neg hm, List.nil_append]
    have hne : c ≠ '-' := by
      intro habs
      subst habs
      exact absurd hcdig (by decide)
    rw [hct, List.cons_append]
    simp only [parseNumber]
    split
    · rename_i t' heq
      exfalso
      injection heq with h1 _
      exact hne h1
    · rw [← List.cons_append, ← hct, parseNumberNonNeg_render m.natAbs e rest h]
      simp only [Option.map_some']
      have hm' : ((m.natAbs : Nat) : Int) = m := by omega
      rw [hm']
/-! ## Round trip: strings -/

theorem hex4_lt32 : ∀ v < 32, hex4 '0' '0' (hexDigitChar (v / 16)) (hexDigitChar (v % 16)) = some v := by decide

theorem parseStrChars_escape_cons (c : Char) (X : List Char) :
    parseStrChars (escapeChar c ++ X) = (parseStrChars X).map (fun p => (c :: p.1, p.2)) := by
  by_cases h1 : c = '"'
  · subst h1; simp [escapeChar, parseStrChars, escDecode]
  by_cases h2 : c = '\\'
  · subst h2; simp [escapeChar, parseStrChars, escDecode, h1]
  by_cases h3 : c = '\n'
  · subst h3; simp [escapeChar, parseStrChars, escDecode]
  by_cases h4 : c = '\r'
  · subst h4; simp [escapeChar, parseStrChars, escDecode]
  by_cases h5 : c = '\t'
  · subst h5; simp [escapeChar, parseStrChars, escDecode]
  by_cases h6 : c = Char.ofNat 8
  · subst h6; simp [escapeChar, parseStrChars, escDecode, h1, h2, h3, h4, h5]
  by_cases h7 : c = Char.ofNat 12
  · subst h7; simp [escapeChar, parseStrChars, escDecode, h1, h2, h3, h4, h5, h6]
  by_cases h8 : c.toNat < 32
  · simp only [escapeChar, if_neg h1, if_neg h2, if_neg h3, if_neg h4, if_neg h5, if_neg h6,
      if_neg h7, if_pos h8]
    have hx := hex4_lt32 c.toNat h8
    have hrange : ¬(0xD800 ≤ c.toNat ∧ c.toNat < 0xDC00) := by omega
    simp [parseStrChars, hx, hrange, Char.ofNat_toNat]
  · simp only [escapeChar, if_neg h1, if_neg h2, if_neg h3, if_neg h4, if_neg h5, if_neg h6,
      if_neg h7, if_neg h8]
    simp [parseStrChars, h1, h2, h8]

theorem parseStrChars_render (l : List Char) (rest : List Char) :
    parseStrChars ((l.map escapeChar).flatten ++ '"' :: rest) = some (l, rest) := by
  induction l with
  | nil => simp [parseStrChars]
  | cons c t ih =>
    simp only [List.map_cons, List.flatten_cons, List.append_assoc]
    rw [parseStrChars_escape_cons, ih]
    rfl

/-! ## Round trip: values -/

mutual
/-- Well-formed `JVal`: every object has distinct keys (as any value produced
by JavaScript `JSON.parse` does). -/
def wfJVal : JVal → Bool
  | .arr xs => wfJList xs
  | .obj fs => decide ((fs.map Prod.fst).Nodup) && wfJFields fs
  | _ => true

def wfJList : List JVal → Bool
  | [] => true
  | x :: xs => wfJVal x && wfJList xs

def wfJFields : List (String × JVal) → Bool
  | [] => true
  | (_, v) :: fs => wfJVal v && wfJFields fs
end

theorem isDigit_not_special {c : Char} (h : c.isDigit = true) :
    isJsonWs c = false ∧ c ≠ '[' ∧ c ≠ '{' ∧ c ≠ ']' ∧ c ≠ '}' ∧ c ≠ '"' ∧
      c ≠ 'n' ∧ c ≠ 't' ∧ c ≠ 'f' := by
  refine ⟨?_, ?_, ?_, ?_, ?_, ?_, ?_, ?_, ?_⟩
  · by_contra hws
    simp only [Bool.not_eq_false] at hws
    simp only [isJsonWs, Bool.or_eq_true, decide_eq_true_eq] at hws
    rcases hws with ((h1 | h1) | h1) | h1 <;> (subst h1; exact absurd h (by decide))
  all_goals (intro h1; subst h1; exact absurd h (by decide))

/-- Every rendered value starts with a distinctive non-whitespace character. -/
theorem renderPretty_head (v : JVal) (ind : Nat) :
    ∃ c t, renderPretty v ind = c :: t ∧ isJsonWs c = false ∧ c ≠ ']' ∧ c ≠ '}' := by
  cases v with
  | null => refine ⟨'n', _, rfl, ?_, ?_, ?_⟩ <;> decide
  | bool b =>
    cases b with
    | true => refine ⟨'t', _, rfl, ?_, ?_, ?_⟩ <;> decide
    | false => refine ⟨'f', _, rfl, ?_, ?_, ?_⟩ <;> decide
  | str s => refine ⟨'"', _, rfl, ?_, ?_, ?_⟩ <;> decide
  | arr xs =>
    cases xs with
    | nil => refine ⟨'[', _, rfl, ?_, ?_, ?_⟩ <;> decide
    | cons x t => refine ⟨'[', _, rfl, ?_, ?_, ?_⟩ <;> decide
  | obj fs =>
    cases fs with
    | nil => refine ⟨'{', _, rfl, ?_, ?_, ?_⟩ <;> decide
    | cons f t => refine ⟨'{', _, rfl, ?_, ?_, ?_⟩ <;> decide
  | num m e =>
    obtain ⟨ip, fp, hrender, hip, hipne, -, -, -, -⟩ := renderNumNat_struct m.natAbs e
    show ∃ c t, renderNum m e = c :: t ∧ _
    by_cases hm : m < 0
    · exact ⟨'-', renderNumNat m.natAbs e, by simp [renderNum, if_pos hm], by decide,
        by decide, by decide⟩
    · obtain ⟨c, ip', hips⟩ : ∃ c ip', ip = c :: ip' := by
        cases ip with
        | nil => exact absurd rfl hipne
        | cons a b => exact ⟨a, b, rfl⟩
      have hcd : c.isDigit = true := hip c (by rw [hips]; simp)
      obtain ⟨hws, -, -, he1, he2, -⟩ := isDigit_not_special hcd
      refine ⟨c, ip' ++ (if e = 0 then [] else '.' :: fp), ?_, hws, he1, he2⟩
      simp [renderNum, if_neg hm, hrender, hips]

theorem parseVal_ws_append {a : List Char} (f : Nat) (X : List Char)
    (h : ∀ c ∈ a, isJsonWs c = true) : parseVal f (a ++ X) = parseVal f X := by
  cases f with
  | zero => rfl
  | succ g => simp only [parseVal, skipWs_append_of_ws X h]

theorem parseArrLoop_ws_append {a : List Char} (f : Nat) (X : List Char) (acc : List JVal)
    (h : ∀ c ∈ a, isJsonWs c = true) : parseArrLoop f (a ++ X) acc = parseArrLoop f X acc := by
  cases f with
  | zero => rfl
  | succ g => simp only [parseArrLoop, parseVal_ws_append g X h]

theorem parseObjLoop_ws_append {a : List Char} (f : Nat) (X : List Char)
    (acc : List (String × JVal))
    (h : ∀ c ∈ a, isJsonWs c = true) : parseObjLoop f (a ++ X) acc = parseObjLoop f X acc := by
  cases f with
  | zero => rfl
  | succ g => simp only [parseObjLoop, skipWs_append_of_ws X h]

theorem objInsert_append {acc : List (String × JVal)} {k : String} (v : JVal)
    (h : k ∉ acc.map Prod.fst) : objInsert acc k v = acc ++ [(k, v)] := by
  induction acc with
  | nil => rfl
  | cons p t ih =>
    obtain ⟨k', v'⟩ := p
    simp only [List.map_cons, List.mem_cons] at h
    push_neg at h
    simp only [objInsert, if_neg (fun hx : k' = k => h.1 hx.symm), List.cons_append]
    rw [ih h.2]

theorem parseVal_skipWs (f : Nat) (cs : List Char) :
    parseVal f (skipWs cs) = parseVal f cs := by
  cases f with
  | zero => rfl
  | succ g => simp only [parseVal, skipWs_skipWs]

theorem parseArrLoop_skipWs (f : Nat) (cs : List Char) (acc : List JVal) :
    parseArrLoop f (skipWs cs) acc = parseArrLoop f cs acc := by
  cases f with
  | zero => rfl
  | succ g => simp only [parseArrLoop, parseVal_skipWs]

theorem parseObjLoop_skipWs (f : Nat) (cs : List Char) (acc : List (String × JVal)) :
    parseObjLoop f (skipWs cs) acc = parseObjLoop f cs acc := by
  cases f with
  | zero => rfl
  | succ g => simp only [parseObjLoop, skipWs_skipWs]

/-- A rendered number begins with a minus sign or a digit. -/
theorem renderNum_head (m : Int) (e : Nat) :
    ∃ c t, renderNum m e = c :: t ∧ (c = '-' ∨ c.isDigit = true) := by
  obtain ⟨ip, fp, hrender, hip, hipne, -, -, -, -⟩ := renderNumNat_struct m.natAbs e
  by_cases hm : m < 0
  · exact ⟨'-', renderNumNat m.natAbs e, by simp [renderNum, if_pos hm], Or.inl rfl⟩
  · obtain ⟨c, ip', hips⟩ : ∃ c ip', ip = c :: ip' := by
      cases ip with
      | nil => exact absurd rfl hipne
      | cons a b => exact ⟨a, b, rfl⟩
    refine ⟨c, ip' ++ (if e = 0 then [] else '.' :: fp), ?_,
      Or.inr (hip c (by rw [hips]; simp))⟩
    simp [renderNum, if_neg hm, hrender, hips]

/-- Round trip of the pretty printer through the parser, for well-formed
values, with enough fuel, at any indentation, before any non-number-like
remainder. -/
theorem roundTrip_all : ∀ fuel : Nat,
    (∀ v ind rest, wfJVal v = true → jvalSize v ≤ fuel → numStop rest = true →
      parseVal fuel (renderPretty v ind ++ rest) = some (v, rest)) ∧
    (∀ xs acc ind rest, wfJList xs = true → xs ≠ [] → jvalListSize xs + 1 ≤ fuel →
      parseArrLoop fuel
          (renderPrettyItems xs (ind + 1) ++ '\n' :: indentChars ind ++ ']' :: rest) acc
        = some (.arr (acc ++ xs), rest)) ∧
    (∀ fs acc ind rest, wfJFields fs = true → (fs.map Prod.fst).Nodup →
      (∀ k ∈ fs.map Prod.fst, k ∉ acc.map Prod.fst) → fs ≠ [] →
      jvalFieldsSize fs + 1 ≤ fuel →
      parseObjLoop fuel
          (renderPrettyFields fs (ind + 1) ++ '\n' :: indentChars ind ++ '}' :: rest) acc
        = some (.obj (acc ++ fs), rest)) := by
  intro fuel
  induction fuel using Nat.strong_induction_on with
  | _ fuel IH =>
  refine ⟨?_, ?_, ?_⟩
  · intro v ind rest hwf hsz hstop
    have hpos := jvalSize_pos v
    cases fuel with
    | zero => omega
    | succ f =>
    cases v with
    | null =>
      have h1 : skipWs (renderPretty .null ind ++ rest) = 'n' :: 'u' :: 'l' :: 'l' :: rest :=
        skipWs_cons_of_not (by decide)
      simp [parseVal, h1]
    | bool b =>
      cases b with
      | true =>
        have h1 : skipWs (renderPretty (.bool true) ind ++ rest) = 't' :: 'r' :: 'u' :: 'e' :: rest :=
          skipWs_cons_of_not (by decide)
        simp [parseVal, h1]
      | false =>
        have h1 : skipWs (renderPretty (.bool false) ind ++ rest)
            = 'f' :: 'a' :: 'l' :: 's' :: 'e' :: rest :=
          skipWs_cons_of_not (by decide)
        simp [parseVal, h1]
    | str s =>
      have h0 : renderPretty (.str s) ind ++ rest
          = '"' :: ((s.data.map escapeChar).flatten ++ '"' :: rest) := by
        show ('"' :: (s.data.map escapeChar).flatten ++ ['"']) ++ rest = _
        simp
      have h1 : skipWs (renderPretty (.str s) ind ++ rest)
          = '"' :: ((s.data.map escapeChar).flatten ++ '"' :: rest) := by
        rw [h0]
        exact skipWs_cons_of_not (by decide)
      simp [parseVal, h1, parseStrChars_render]
    | num m e =>
      obtain ⟨c, t, hct, hc⟩ := renderNum_head m e
      have hne : c ≠ 'n' ∧ c ≠ 't' ∧ c ≠ 'f' ∧ c ≠ '"' ∧ c ≠ '[' ∧ c ≠ '{' ∧
          isJsonWs c = false := by
        rcases hc with hc | hc
        · subst hc
          refine ⟨by decide, by decide, by decide, by decide, by decide, by decide, by decide⟩
        · obtain ⟨hws, h8, h9, -, -, h7, h4, h5, h6⟩ := isDigit_not_special hc
          exact ⟨h4, h5, h6, h7, h8, h9, hws⟩
      have h1 : skipWs (renderPretty (.num m e) ind ++ rest) = c :: (t ++ rest) := by
        show skipWs (renderNum m e ++ rest) = _
        rw [hct, List.cons_append, skipWs_cons_of_not hne.2.2.2.2.2.2]
      have h2 : parseVal (f + 1) (renderPretty (.num m e) ind ++ rest)
          = parseNumber (c :: (t ++ rest)) := by
        simp only [parseVal, h1]
        split
        · rename_i r heq; exact absurd (List.head_eq_of_cons_eq heq) hne.1
        · rename_i r heq; exact absurd (List.head_eq_of_cons_eq heq) hne.2.1
        · rename_i r heq; exact absurd (List.head_eq_of_cons_eq heq) hne.2.2.1
        · rename_i r heq; exact absurd (List.head_eq_of_cons_eq heq) hne.2.2.2.1
        · rename_i r heq; exact absurd (List.head_eq_of_cons_eq heq) hne.2.2.2.2.1
        · rename_i r heq; exact absurd (List.head_eq_of_cons_eq heq) hne.2.2.2.2.2.1
        · rfl
      rw [h2, ← List.cons_append, ← hct]
      show parseNumber (renderNum m e ++ rest) = _
      exact parseNumber_renderNum m e rest hstop
    | arr xs =>
      cases xs with
      | nil =>
        have h1 : skipWs (renderPretty (.arr []) ind ++ rest) = '[' :: ']' :: rest :=
          skipWs_cons_of_not (by decide)
        simp only [jvalSize, jvalListSize] at hsz
        cases f with
        | zero => omega
        | succ g =>
          have h2 : skipWs (']' :: rest) = ']' :: rest := skipWs_cons_of_not (by decide)
          simp [parseVal, h1, parseArrItems, h2]
      | cons x xs2 =>
        simp only [jvalSize, jvalListSize] at hsz
        have hxpos := jvalSize_pos x
        cases f with
        | zero => omega
        | succ g =>
        have h0 : renderPretty (.arr (x :: xs2)) ind ++ rest
            = '[' :: '\n' :: (renderPrettyItems (x :: xs2) (ind + 1) ++
                '\n' :: indentChars ind ++ ']' :: rest) := by
          show ('[' :: '\n' :: renderPrettyItems (x :: xs2) (ind + 1) ++
              '\n' :: indentChars ind ++ [']']) ++ rest = _
          simp
        have h1 : skipWs (renderPretty (.arr (x :: xs2)) ind ++ rest)
            = '[' :: ('\n' :: (renderPrettyItems (x :: xs2) (ind + 1) ++
                '\n' :: indentChars ind ++ ']' :: rest)) := by
          rw [h0]
          exact skipWs_cons_of_not (by decide)
        obtain ⟨c, t, hct, hcw, hcb, -⟩ := renderPretty_head x (ind + 1)
        obtain ⟨R, hR⟩ : ∃ R, renderPrettyItems (x :: xs2) (ind + 1) ++
            '\n' :: indentChars ind ++ ']' :: rest
            = indentChars (ind + 1) ++ (renderPretty x (ind + 1) ++ R) := by
          cases xs2 with
          | nil => exact ⟨'\n' :: indentChars ind ++ ']' :: rest, by simp [renderPrettyItems]⟩
          | cons y ys => exact ⟨',' :: '\n' :: renderPrettyItems (y :: ys) (ind + 1) ++
              '\n' :: indentChars ind ++ ']' :: rest, by simp [renderPrettyItems]⟩
        have h2 : skipWs ('\n' :: (renderPrettyItems (x :: xs2) (ind + 1) ++
            '\n' :: indentChars ind ++ ']' :: rest)) = c :: (t ++ R) := by
          rw [show ('\n' :: (renderPrettyItems (x :: xs2) (ind + 1) ++
              '\n' :: indentChars ind ++ ']' :: rest))
            = ['\n'] ++ (renderPrettyItems (x :: xs2) (ind + 1) ++
              '\n' :: indentChars ind ++ ']' :: rest) from rfl]
          rw [skipWs_append_of_ws _ (by intro a ha; simp at ha; subst ha; decide)]
          rw [hR, skipWs_append_of_ws _ indentChars_ws, hct, List.cons_append]
          exact skipWs_cons_of_not hcw
        simp only [parseVal, h1, parseArrItems, h2]
        split
        · rename_i r heq
          exact absurd (List.head_eq_of_cons_eq heq) hcb
        · rw [← h2, parseArrLoop_skipWs]
          rw [show ('\n' :: (renderPrettyItems (x :: xs2) (ind + 1) ++
              '\n' :: indentChars ind ++ ']' :: rest))
            = ['\n'] ++ (renderPrettyItems (x :: xs2) (ind + 1) ++
              '\n' :: indentChars ind ++ ']' :: rest) from rfl]
          rw [parseArrLoop_ws_append _ _ _ (by intro a ha; simp at ha; subst ha; decide)]
          have hwl : wfJList (x :: xs2) = true := by
            have : wfJVal (.arr (x :: xs2)) = wfJList (x :: xs2) := rfl
            rw [← this]
            exact hwf
          have hQ := (IH g (by omega)).2.1 (x :: xs2) [] ind rest hwl (by simp)
            (by simp only [jvalListSize]; omega)
          simpa using hQ
    | obj fs =>
      cases fs with
      | nil =>
        have h1 : skipWs (renderPretty (.obj []) ind ++ rest) = '{' :: '}' :: rest :=
          skipWs_cons_of_not (by decide)
        simp only [jvalSize, jvalFieldsSize] at hsz
        cases f with
        | zero => omega
        | succ g =>
          have h2 : skipWs ('}' :: rest) = '}' :: rest := skipWs_cons_of_not (by decide)
          simp [parseVal, h1, parseObjItems, h2]
      | cons p fs2 =>
        obtain ⟨k, v⟩ := p
        simp only [jvalSize, jvalFieldsSize] at hsz
        have hvpos := jvalSize_pos v
        cases f with
        | zero => omega
        | succ g =>
        have h0 : renderPretty (.obj ((k, v) :: fs2)) ind ++ rest
            = '{' :: '\n' :: (renderPrettyFields ((k, v) :: fs2) (ind + 1) ++
                '\n' :: indentChars ind ++ '}' :: rest) := by
          show ('{' :: '\n' :: renderPrettyFields ((k, v) :: fs2) (ind + 1) ++
              '\n' :: indentChars ind ++ ['}']) ++ rest = _
          simp
        have h1 : skipWs (renderPretty (.obj ((k, v) :: fs2)) ind ++ rest)
            = '{' :: ('\n' :: (renderPrettyFields ((k, v) :: fs2) (ind + 1) ++
                '\n' :: indentChars ind ++ '}' :: rest)) := by
          rw [h0]
          exact skipWs_cons_of_not (by decide)
        obtain ⟨R, hR⟩ : ∃ R, renderPrettyFields ((k, v) :: fs2) (ind + 1) ++
            '\n' :: indentChars ind ++ '}' :: rest
            = indentChars (ind + 1) ++ ('"' :: ((k.data.map escapeChar).flatten ++ '"' :: R)) := by
          cases fs2 with
          | nil => exact ⟨':' :: ' ' :: renderPretty v (ind + 1) ++
              '\n' :: indentChars ind ++ '}' :: rest, by simp [renderPrettyFields, renderString]⟩
          | cons q fs3 => exact ⟨':' :: ' ' :: renderPretty v (ind + 1) ++
              ',' :: '\n' :: renderPrettyFields (q :: fs3) (ind + 1) ++
              '\n' :: indentChars ind ++ '}' :: rest, by simp [renderPrettyFields, renderString]⟩
        have h2 : skipWs ('\n' :: (renderPrettyFields ((k, v) :: fs2) (ind + 1) ++
            '\n' :: indentChars ind ++ '}' :: rest))
            = '"' :: ((k.data.map escapeChar).flatten ++ '"' :: R) := by
          rw [show ('\n' :: (renderPrettyFields ((k, v) :: fs2) (ind + 1) ++
              '\n' :: indentChars ind ++ '}' :: rest))
            = ['\n'] ++ (renderPrettyFields ((k, v) :: fs2) (ind + 1) ++
              '\n' :: indentChars ind ++ '}' :: rest) from rfl]
          rw [skipWs_append_of_ws _ (by intro a ha; simp at ha; subst ha; decide)]
          rw [hR, skipWs_append_of_ws _ indentChars_ws]
          exact skipWs_cons_of_not (by decide)
        simp only [parseVal, h1, parseObjItems, h2]
        split
        · rename_i r heq
          exact absurd (List.head_eq_of_cons_eq heq) (by decide)
        · rw [← h2, parseObjLoop_skipWs]
          rw [show ('\n' :: (renderPrettyFields ((k, v) :: fs2) (ind + 1) ++
              '\n' :: indentChars ind ++ '}' :: rest))
            = ['\n'] ++ (renderPrettyFields ((k, v) :: fs2) (ind + 1) ++
              '\n' :: indentChars ind ++ '}' :: rest) from rfl]
          rw [parseObjLoop_ws_append _ _ _ (by intro a ha; simp at ha; subst ha; decide)]
          have hwo : decide (((((k, v) :: fs2).map Prod.fst)).Nodup) = true ∧
              wfJFields ((k, v) :: fs2) = true := by
            have : wfJVal (.obj ((k, v) :: fs2))
                = (decide ((((k, v) :: fs2).map Prod.fst).Nodup) && wfJFields ((k, v) :: fs2)) :=
              rfl
            rw [this] at hwf
            exact Bool.and_eq_true_iff.mp hwf
          have hR3 := (IH g (by omega)).2.2 ((k, v) :: fs2) [] ind rest hwo.2
            (by simpa using hwo.1) (by simp) (by simp) (by simp only [jvalFieldsSize]; omega)
          simpa using hR3
  · intro xs acc ind rest hwf hne hsz
    cases fuel with
    | zero => omega
    | succ g =>
    cases xs with
    | nil => exact absurd rfl hne
    | cons x xs2 =>
    have hwl : wfJVal x = true ∧ wfJList xs2 = true := by
      have : wfJList (x :: xs2) = (wfJVal x && wfJList xs2) := rfl
      rw [this] at hwf
      exact Bool.and_eq_true_iff.mp hwf
    simp only [jvalListSize] at hsz
    have hxpos := jvalSize_pos x
    have hP := (IH g (by omega)).1
    cases xs2 with
    | nil =>
      have hCS : renderPrettyItems [x] (ind + 1) ++ '\n' :: indentChars ind ++ ']' :: rest
          = indentChars (ind + 1) ++ (renderPretty x (ind + 1) ++
              ('\n' :: indentChars ind ++ ']' :: rest)) := by
        simp [renderPrettyItems]
      rw [hCS]
      simp only [parseArrLoop]
      rw [parseVal_ws_append g _ indentChars_ws]
      rw [hP x (ind + 1) ('\n' :: indentChars ind ++ ']' :: rest) hwl.1
        (by omega) rfl]
      have h3 : skipWs ('\n' :: (indentChars ind ++ ']' :: rest)) = ']' :: rest := by
        rw [show '\n' :: (indentChars ind ++ ']' :: rest)
          = (['\n'] ++ indentChars ind) ++ (']' :: rest) by simp]
        rw [skipWs_append_of_ws _ (by
          intro a ha
          simp only [List.cons_append, List.nil_append, List.mem_cons] at ha
          rcases ha with ha | ha
          · subst ha; decide
          · exact indentChars_ws a ha)]
        exact skipWs_cons_of_not (by decide)
      simp [h3]
    | cons y ys =>
      have hCS : renderPrettyItems (x :: y :: ys) (ind + 1) ++
            '\n' :: indentChars ind ++ ']' :: rest
          = indentChars (ind + 1) ++ (renderPretty x (ind + 1) ++
              (',' :: '\n' :: (renderPrettyItems (y :: ys) (ind + 1) ++
                '\n' :: indentChars ind ++ ']' :: rest))) := by
        simp [renderPrettyItems]
      rw [hCS]
      simp only [parseArrLoop]
      rw [parseVal_ws_append g _ indentChars_ws]
      rw [hP x (ind + 1) (',' :: '\n' :: (renderPrettyItems (y :: ys) (ind + 1) ++
        '\n' :: indentChars ind ++ ']' :: rest)) hwl.1 (by omega) rfl]
      have h3 : skipWs (',' :: '\n' :: (renderPrettyItems (y :: ys) (ind + 1) ++
          '\n' :: indentChars ind ++ ']' :: rest))
          = ',' :: '\n' :: (renderPrettyItems (y :: ys) (ind + 1) ++
          '\n' :: indentChars ind ++ ']' :: rest) := skipWs_cons_of_not (by decide)
      simp only [h3]
      rw [show ('\n' :: (renderPrettyItems (y :: ys) (ind + 1) ++
          '\n' :: indentChars ind ++ ']' :: rest))
        = ['\n'] ++ (renderPrettyItems (y :: ys) (ind + 1) ++
          '\n' :: indentChars ind ++ ']' :: rest) from rfl]
      rw [parseArrLoop_ws_append _ _ _ (by intro a ha; simp at ha; subst ha; decide)]
      have hQ2 := (IH g (by omega)).2.1 (y :: ys) (acc ++ [x]) ind rest hwl.2 (by simp)
        (by omega)
      rw [hQ2]
      simp
  · intro fs acc ind rest hwf hnod hdisj hne hsz
    cases fuel with
    | zero => omega
    | succ g =>
    cases fs with
    | nil => exact absurd rfl hne
    | cons p fs2 =>
    obtain ⟨k, v⟩ := p
    have hwl : wfJVal v = true ∧ wfJFields fs2 = true := by
      have : wfJFields ((k, v) :: fs2) = (wfJVal v && wfJFields fs2) := rfl
      rw [this] at hwf
      exact Bool.and_eq_true_iff.mp hwf
    simp only [jvalFieldsSize] at hsz
    have hvpos := jvalSize_pos v
    have hP := (IH g (by omega)).1
    have hkacc : k ∉ acc.map Prod.fst := hdisj k (by simp)
    have hwsp : ∀ a, a ∈ ([' '] : List Char) → isJsonWs a = true := by
      intro a ha; simp at ha; subst ha; decide
    cases fs2 with
    | nil =>
      have hCS : renderPrettyFields [(k, v)] (ind + 1) ++ '\n' :: indentChars ind ++ '}' :: rest
          = indentChars (ind + 1) ++ ('"' :: ((k.data.map escapeChar).flatten ++
              '"' :: (':' :: ' ' :: (renderPretty v (ind + 1) ++
                ('\n' :: (indentChars ind ++ '}' :: rest)))))) := by
        simp [renderPrettyFields, renderString]
      rw [hCS]
      simp only [parseObjLoop]
      have h1 : skipWs (indentChars (ind + 1) ++ ('"' :: ((k.data.map escapeChar).flatten ++
          '"' :: (':' :: ' ' :: (renderPretty v (ind + 1) ++
            ('\n' :: (indentChars ind ++ '}' :: rest)))))))
          = '"' :: ((k.data.map escapeChar).flatten ++
          '"' :: (':' :: ' ' :: (renderPretty v (ind + 1) ++
            ('\n' :: (indentChars ind ++ '}' :: rest))))) := by
        rw [skipWs_append_of_ws _ indentChars_ws]
        exact skipWs_cons_of_not (by decide)
      have h2 : skipWs (':' :: ' ' :: (renderPretty v (ind + 1) ++
          ('\n' :: (indentChars ind ++ '}' :: rest))))
          = ':' :: ' ' :: (renderPretty v (ind + 1) ++
          ('\n' :: (indentChars ind ++ '}' :: rest))) := skipWs_cons_of_not (by decide)
      have h3 : parseVal g (' ' :: (renderPretty v (ind + 1) ++
          ('\n' :: (indentChars ind ++ '}' :: rest))))
          = some (v, '\n' :: (indentChars ind ++ '}' :: rest)) := by
        rw [show (' ' :: (renderPretty v (ind + 1) ++
          ('\n' :: (indentChars ind ++ '}' :: rest))))
          = [' '] ++ (renderPretty v (ind + 1) ++
          ('\n' :: (indentChars ind ++ '}' :: rest))) from rfl]
        rw [parseVal_ws_append g _ hwsp]
        exact hP v (ind + 1) _ hwl.1 (by omega) rfl
      have h4 : skipWs ('\n' :: (indentChars ind ++ '}' :: rest)) = '}' :: rest := by
        rw [show '\n' :: (indentChars ind ++ '}' :: rest)
          = (['\n'] ++ indentChars ind) ++ ('}' :: rest) by simp]
        rw [skipWs_append_of_ws _ (by
          intro a ha
          simp only [List.cons_append, List.nil_append, List.mem_cons] at ha
          rcases ha with ha | ha
          · subst ha; decide
          · exact indentChars_ws a ha)]
        exact skipWs_cons_of_not (by decide)
      simp only [h1, parseStrChars_render, h2, h3, h4]
      rw [show String.mk k.data = k from rfl, objInsert_append v hkacc]
    | cons q fs3 =>
      have hCS : renderPrettyFields ((k, v) :: q :: fs3) (ind + 1) ++
            '\n' :: indentChars ind ++ '}' :: rest
          = indentChars (ind + 1) ++ ('"' :: ((k.data.map escapeChar).flatten ++
              '"' :: (':' :: ' ' :: (renderPretty v (ind + 1) ++
                (',' :: '\n' :: (renderPrettyFields (q :: fs3) (ind + 1) ++
                  '\n' :: indentChars ind ++ '}' :: rest)))))) := by
        simp [renderPrettyFields, renderString]
      rw [hCS]
      simp only [parseObjLoop]
      have h1 : skipWs (indentChars (ind + 1) ++ ('"' :: ((k.data.map escapeChar).flatten ++
          '"' :: (':' :: ' ' :: (renderPretty v (ind + 1) ++
            (',' :: '\n' :: (renderPrettyFields (q :: fs3) (ind + 1) ++
              '\n' :: indentChars ind ++ '}' :: rest)))))))
          = '"' :: ((k.data.map escapeChar).flatten ++
          '"' :: (':' :: ' ' :: (renderPretty v (ind + 1) ++
            (',' :: '\n' :: (renderPrettyFields (q :: fs3) (ind + 1) ++
              '\n' :: indentChars ind ++ '}' :: rest))))) := by
        rw [skipWs_append_of_ws _ indentChars_ws]
        exact skipWs_cons_of_not (by decide)
      have h2 : skipWs (':' :: ' ' :: (renderPretty v (ind + 1) ++
          (',' :: '\n' :: (renderPrettyFields (q :: fs3) (ind + 1) ++
            '\n' :: indentChars ind ++ '}' :: rest))))
          = ':' :: ' ' :: (renderPretty v (ind + 1) ++
          (',' :: '\n' :: (renderPrettyFields (q :: fs3) (ind + 1) ++
            '\n' :: indentChars ind ++ '}' :: rest))) := skipWs_cons_of_not (by decide)
      have h3 : parseVal g (' ' :: (renderPretty v (ind + 1) ++
          (',' :: '\n' :: (renderPrettyFields (q :: fs3) (ind + 1) ++
            '\n' :: indentChars ind ++ '}' :: rest))))
          = some (v, ',' :: '\n' :: (renderPrettyFields (q :: fs3) (ind + 1) ++
            '\n' :: indentChars ind ++ '}' :: rest)) := by
        rw [show (' ' :: (renderPretty v (ind + 1) ++
          (',' :: '\n' :: (renderPrettyFields (q :: fs3) (ind + 1) ++
            '\n' :: indentChars ind ++ '}' :: rest))))
          = [' '] ++ (renderPretty v (ind + 1) ++
          (',' :: '\n' :: (renderPrettyFields (q :: fs3) (ind + 1) ++
            '\n' :: indentChars ind ++ '}' :: rest))) from rfl]
        rw [parseVal_ws_append g _ hwsp]
        exact hP v (ind + 1) _ hwl.1 (by omega) rfl
      have h4 : skipWs (',' :: '\n' :: (renderPrettyFields (q :: fs3) (ind + 1) ++
          '\n' :: indentChars ind ++ '}' :: rest))
          = ',' :: '\n' :: (renderPrettyFields (q :: fs3) (ind + 1) ++
          '\n' :: indentChars ind ++ '}' :: rest) := skipWs_cons_of_not (by decide)
      simp only [h1, parseStrChars_render, h2, h3, h4]
      rw [show String.mk k.data = k from rfl, objInsert_append v hkacc]
      rw [show ('\n' :: (renderPrettyFields (q :: fs3) (ind + 1) ++
          '\n' :: indentChars ind ++ '}' :: rest))
        = ['\n'] ++ (renderPrettyFields (q :: fs3) (ind + 1) ++
          '\n' :: indentChars ind ++ '}' :: rest) from rfl]
      rw [parseObjLoop_ws_append _ _ _ (by intro a ha; simp at ha; subst ha; decide)]
      have hnod2 : ((q :: fs3).map Prod.fst).Nodup := by
        simp only [List.map_cons, List.nodup_cons] at hnod ⊢
        exact ⟨hnod.2.1, hnod.2.2⟩
      have hknot : k ∉ (q :: fs3).map Prod.fst := by
        simp only [List.map_cons, List.nodup_cons] at hnod
        simpa using hnod.1
      have hdisj2 : ∀ k2 ∈ (q :: fs3).map Prod.fst, k2 ∉ (acc ++ [(k, v)]).map Prod.fst := by
        intro k2 hk2
        simp only [List.map_append, List.mem_append, List.map_cons, List.map_nil,
          List.mem_singleton, not_or]
        refine ⟨hdisj k2 (by
          simp only [List.map_cons]
          exact List.mem_cons_of_mem _ (by simpa using hk2)), ?_⟩
        intro habs
        subst habs
        exact hknot hk2
      have hR2 := (IH g (by omega)).2.2 (q :: fs3) (acc ++ [(k, v)]) ind rest hwl.2 hnod2
        hdisj2 (by simp) (by omega)
      rw [hR2]
      simp

/-- Per-item length bound for array items. -/
theorem items_bound (ys : List JVal) (ind : Nat)
    (h : ∀ y ∈ ys, jvalSize y ≤ 3 * (renderPretty y ind).length) :
    jvalListSize ys ≤ 3 * (renderPrettyItems ys ind).length := by
  induction ys with
  | nil => simp [jvalListSize]
  | cons x t ih =>
    cases t with
    | nil =>
      have := h x (by simp)
      simp only [jvalListSize, renderPrettyItems, List.length_append]
      simp only [jvalListSize] at this ⊢
      omega
    | cons y u =>
      have h1 := h x (by simp)
      have h2 := ih (fun z hz => h z (by simp [hz]))
      simp only [jvalListSize] at h2 ⊢
      simp only [renderPrettyItems, List.length_append, List.length_cons]
      omega

/-- Per-field length bound for object fields. -/
theorem fields_bound (fs : List (String × JVal)) (ind : Nat)
    (h : ∀ p ∈ fs, jvalSize p.2 ≤ 3 * (renderPretty p.2 ind).length) :
    jvalFieldsSize fs ≤ 3 * (renderPrettyFields fs ind).length := by
  induction fs with
  | nil => simp [jvalFieldsSize]
  | cons p t ih =>
    obtain ⟨k, v⟩ := p
    cases t with
    | nil =>
      have hv : jvalSize v ≤ 3 * (renderPretty v ind).length := h (k, v) (by simp)
      simp only [jvalFieldsSize, renderPrettyFields, List.length_append, List.length_cons]
      omega
    | cons q u =>
      have h1 : jvalSize v ≤ 3 * (renderPretty v ind).length := h (k, v) (by simp)
      have h2 := ih (fun z hz => h z (by simp [hz]))
      simp only [jvalFieldsSize] at h2 ⊢
      simp only [renderPrettyFields, List.length_append, List.length_cons]
      omega

/-- The size measure is bounded by the rendered length. -/
theorem size_le_render (v : JVal) (ind : Nat) :
    jvalSize v ≤ 3 * (renderPretty v ind).length := by
  cases v with
  | null => simp [jvalSize, renderPretty]
  | bool b => cases b <;> simp [jvalSize, renderPretty]
  | num m e =>
    obtain ⟨c, t, hct, -⟩ := renderNum_head m e
    show jvalSize (.num m e) ≤ 3 * (renderNum m e).length
    rw [hct]
    simp only [jvalSize, List.length_cons]
    omega
  | str s =>
    show jvalSize (.str s) ≤ 3 * (renderString s).length
    simp only [jvalSize, renderString, List.length_cons, List.length_append]
    omega
  | arr xs =>
    cases xs with
    | nil => simp [jvalSize, jvalListSize, renderPretty]
    | cons x t =>
      have hb := items_bound (x :: t) (ind + 1)
        (fun y hy => size_le_render y (ind + 1))
      simp only [jvalSize]
      simp only [renderPretty, List.length_cons, List.length_append]
      omega
  | obj fs =>
    cases fs with
    | nil => simp [jvalSize, jvalFieldsSize, renderPretty]
    | cons p t =>
      have hb := fields_bound (p :: t) (ind + 1)
        (fun q hq => size_le_render q.2 (ind + 1))
      simp only [jvalSize]
      simp only [renderPretty, List.length_cons, List.length_append]
      omega
termination_by jvalSize v
decreasing_by
  · have := jvalListSize_of_mem hy
    simp only [jvalSize]
    omega
  · obtain ⟨k2, v2⟩ := q
    have hm := jvalFieldsSize_of_mem hq
    change jvalSize v2 < _
    simp only [jvalSize]
    omega

/-- Top-level round trip: parsing the pretty-printed text of a well-formed
value recovers the value. -/
theorem jsonParse_renderPretty (v : JVal) (h : wfJVal v = true) :
    jsonParse (String.mk (renderPretty v 0)) = .ok v := by
  have hP := (roundTrip_all (3 * (renderPretty v 0).length + 9)).1
  have hfuel : jvalSize v ≤ 3 * (renderPretty v 0).length + 9 := by
    have := size_le_render v 0
    omega
  have hrt : parseVal (3 * (renderPretty v 0).length + 9) (renderPretty v 0)
      = some (v, []) := by
    have h2 := hP v 0 [] h hfuel rfl
    rwa [List.append_nil] at h2
  simp only [jsonParse]
  rw [hrt]
  rfl

/-! ## Data model of the parser (`parser.ts`) -/

mutual
/-- `ParsedComponent` from `parser.ts`: a text node (`type = "text"`) or an
element node with a tag (`component`), a property mapping and optional
children. The `component` field holds whatever decoded value was at index 1
of the descriptor. -/
inductive ParsedComponent where
  | mk (type : String) (component : JVal) (props : List (String × JVal))
       (children : Option (List PCChild)) : ParsedComponent

/-- A child is a nested component or a plain string. -/
inductive PCChild where
  | str (s : String) : PCChild
  | comp (c : ParsedComponent) : PCChild
end

def ParsedComponent.type : ParsedComponent → String
  | .mk t _ _ _ => t

def ParsedComponent.component : ParsedComponent → JVal
  | .mk _ c _ _ => c

def ParsedComponent.props : ParsedComponent → List (String × JVal)
  | .mk _ _ p _ => p

def ParsedComponent.children : ParsedComponent → Option (List PCChild)
  | .mk _ _ _ c => c

/-- The text node `{ type: 'text', component: 'text', props: { content } }`. -/
def textNode (s : String) : ParsedComponent :=
  .mk "text" (.str "text") [("content", .str s)] none

/-- `data.length > 0 && data[0] === '$'` on an optional head element. -/
def isTagMarker : Option JVal → Bool
  | some (JVal.str s) => s = "$"
  | _ => false

/-- JavaScript spread `{ ...props }` of an arbitrary value into a property
list: objects copy their entries (later duplicate keys overwrite), strings
spread to indexed single-character entries, arrays to indexed entries,
and primitives spread to nothing. -/
def spreadToProps : JVal → List (String × JVal)
  | .obj fs => fs.foldl (fun acc p => objInsert acc p.1 p.2) []
  | .str s => s.data.enum.map (fun p => (toString p.1, JVal.str (String.mk [p.2])))
  | .arr xs => xs.enum.map (fun p => (toString p.1, p.2))
  | _ => []

/-- `componentArray[3] || {}`. -/
def propsValOf (componentArray : List JVal) : JVal :=
  match componentArray[3]? with
  | some j => if j.truthy then j else JVal.obj []
  | none => JVal.obj []

theorem lookup_mem {l : List (String × JVal)} {k : String} {v : JVal}
    (h : List.lookup k l = some v) : (k, v) ∈ l := by
  induction l with
  | nil => simp [List.lookup] at h
  | cons p t ih =>
    obtain ⟨k', v'⟩ := p
    simp only [List.lookup] at h
    by_cases hk : (k == k') = true
    · simp only [hk] at h
      injection h with h
      subst h
      simp only [List.mem_cons]
      left
      rw [show k = k' from by simpa using hk]
    · simp only [Bool.not_eq_true] at hk
      simp only [hk] at h
      exact List.mem_cons_of_mem _ (ih h)

theorem objInsert_values {acc : List (String × JVal)} {k : String} {v : JVal}
    {k2 : String} {v2 : JVal} (h : (k2, v2) ∈ objInsert acc k v) :
    (k2, v2) ∈ acc ∨ v2 = v := by
  induction acc with
  | nil =>
    simp only [objInsert, List.mem_singleton] at h
    right
    exact (Prod.mk.injEq _ _ _ _ ▸ h).2
  | cons p t ih =>
    obtain ⟨k', v'⟩ := p
    simp only [objInsert] at h
    by_cases hk : k' = k
    · rw [if_pos hk] at h
      rcases List.mem_cons.mp h with h | h
      · right
        exact (Prod.mk.injEq _ _ _ _ ▸ h).2
      · left
        exact List.mem_cons_of_mem _ h
    · rw [if_neg hk] at h
      rcases List.mem_cons.mp h with h | h
      · left
        rw [h]
        simp
      · rcases ih h with h | h
        · left
          exact List.mem_cons_of_mem _ h
        · right
          exact h

theorem foldl_objInsert_values {fs : List (String × JVal)} {acc : List (String × JVal)}
    {k2 : String} {v2 : JVal}
    (h : (k2, v2) ∈ fs.foldl (fun a p => objInsert a p.1 p.2) acc) :
    (k2, v2) ∈ acc ∨ ∃ k', (k', v2) ∈ fs := by
  induction fs generalizing acc with
  | nil => exact Or.inl h
  | cons p t ih =>
    simp only [List.foldl_cons] at h
    rcases ih h with h1 | h1
    · rcases objInsert_values h1 with h2 | h2
      · exact Or.inl h2
      · subst h2
        exact Or.inr ⟨p.1, by simp⟩
    · obtain ⟨k', hk'⟩ := h1
      exact Or.inr ⟨k', List.mem_cons_of_mem _ hk'⟩

theorem spreadToProps_size {j : JVal} {k : String} {v : JVal}
    (h : (k, v) ∈ spreadToProps j) : jvalSize v ≤ jvalSize j := by
  cases j with
  | obj fs =>
    simp only [spreadToProps] at h
    rcases foldl_objInsert_values h with h | ⟨k', hk'⟩
    · simp at h
    · have := jvalFieldsSize_of_mem hk'
      simp only [jvalSize]
      omega
  | str s =>
    simp only [spreadToProps, List.mem_map] at h
    obtain ⟨p, -, hp⟩ := h
    have : v = JVal.str (String.mk [p.2]) := (Prod.mk.injEq _ _ _ _ ▸ hp).2.symm
    subst this
    simp [jvalSize]
  | arr xs =>
    simp only [spreadToProps, List.mem_map] at h
    obtain ⟨p, hpmem, hp⟩ := h
    have hv : v = p.2 := (Prod.mk.injEq _ _ _ _ ▸ hp).2.symm
    subst hv
    have : p.2 ∈ xs := by
      have := List.mem_map_of_mem Prod.snd hpmem
      rwa [List.enum_map_snd] at this
    have := jvalListSize_of_mem this
    simp only [jvalSize]
    omega
  | null => simp [spreadToProps] at h
  | bool b => simp [spreadToProps] at h
  | num m e => simp [spreadToProps] at h

theorem childrenLookup_size {l : List JVal} {ch : JVal}
    (h : List.lookup "children" (spreadToProps (propsValOf l)) = some ch) :
    jvalSize ch ≤ jvalListSize l := by
  have hmem := lookup_mem h
  have h1 := spreadToProps_size hmem
  unfold propsValOf at h1
  cases h3 : l[3]? with
  | none =>
    simp only [propsValOf, h3, spreadToProps, List.foldl_nil] at h
    simp [List.lookup] at h
  | some j =>
    simp only [h3] at h1
    by_cases hj : j.truthy = true
    · simp only [hj, if_true] at h1
      have hjm : j ∈ l := by
        have := List.getElem?_eq_some_iff.mp h3
        obtain ⟨hlt, hg⟩ := this
        rw [← hg]
        exact List.getElem_mem hlt
      have := jvalListSize_of_mem hjm
      omega
    · simp only [Bool.not_eq_true] at hj
      simp only [propsValOf, h3, hj, Bool.false_eq_true, if_false, spreadToProps,
        List.foldl_nil] at h
      simp [List.lookup] at h

/-! ## Tree Builder (`parseComponentStructure` / `parseComponent` / `parseChildren`) -/

mutual
/-- `parseComponentStructure` from `parser.ts`: interpret a decoded value as
a sequence of components. -/
def parseComponentStructure (data : JVal) : List ParsedComponent :=
  match data with
  | .str s => [textNode s]
  | .arr l =>
    if isTagMarker l.head? then
      match parseComponent l with
      | some c => [c]
      | none => []
    else parseComponentStructureList l
  | _ => []
termination_by 4 * jvalSize data
decreasing_by
  all_goals (simp only [jvalSize, jvalListSize]; omega)

/-- The element loop of `parseComponentStructure`: strings become text nodes,
arrays are tried as components and otherwise expanded recursively, all other
values are skipped. -/
def parseComponentStructureList (l : List JVal) : List ParsedComponent :=
  match l with
  | [] => []
  | item :: rest =>
    (match item with
     | .str s => [textNode s]
     | .arr il =>
       (match parseComponent il with
        | some c => [c]
        | none => parseComponentStructure (.arr il))
     | _ => []) ++ parseComponentStructureList rest
termination_by 4 * jvalListSize l + 1
decreasing_by
  all_goals simp only [jvalSize, jvalListSize]
  all_goals try omega
  all_goals (have h9 := jvalSize_pos x; omega)

/-- `parseComponent` from `parser.ts`: parse a `["$", tag, key, props]`
descriptor into an element node, consuming a truthy `children` property. -/
def parseComponent (componentArray : List JVal) : Option ParsedComponent :=
  if componentArray.length < 3 || !(isTagMarker componentArray.head?) then none
  else
    let componentType := (componentArray[1]?).getD JVal.null
    let props := spreadToProps (propsValOf componentArray)
    match hch : List.lookup "children" props with
    | some ch =>
      if ch.truthy then
        some (.mk "component" componentType (props.filter (fun p => p.1 ≠ "children"))
          (some (parseChildren ch)))
      else some (.mk "component" componentType props none)
    | none => some (.mk "component" componentType props none)
termination_by 4 * jvalListSize componentArray + 4
decreasing_by
  all_goals (have h9 := childrenLookup_size hch; omega)

/-- `parseChildren` from `parser.ts`: interpret a `children` property value
as a sequence of child nodes. -/
def parseChildren (children : JVal) : List PCChild :=
  match children with
  | .str s => [.str s]
  | .arr l =>
    if isTagMarker l.head? then
      match parseComponent l with
      | some c => [.comp c]
      | none => []
    else parseChildrenList l
  | _ => []
termination_by 4 * jvalSize children + 3
decreasing_by
  all_goals (simp only [jvalSize, jvalListSize]; omega)

/-- The element loop of `parseChildren`: strings stay strings, arrays are
tried as components and otherwise expanded as children, and any other value
is wrapped in a one-element array and expanded via
`parseComponentStructure`. -/
def parseChildrenList (l : List JVal) : List PCChild :=
  match l with
  | [] => []
  | child :: rest =>
    (match child with
     | .str s => [PCChild.str s]
     | .arr il =>
       (match parseComponent il with
        | some c => [PCChild.comp c]
        | none => parseChildren (.arr il))
     | other => (parseComponentStructure (.arr [other])).map PCChild.comp)
      ++ parseChildrenList rest
termination_by 4 * jvalListSize l + 14
decreasing_by
  all_goals simp only [jvalSize, jvalListSize]
  all_goals try omega
  all_goals (have h9 := jvalSize_pos x; omega)
end

/-! ## Payload Classifier (`detectDataType`) -/

/-- The classification tags used by the parser. -/
inductive DataType where
  | componentData : DataType
  | moduleLoading : DataType
  | unknown : DataType
deriving DecidableEq, Repr

/-- Character class `[0-9a-f]` (lowercase hex, as in the module regex). -/
def isHexLower (c : Char) : Bool := c.isDigit || ('a' ≤ c && c ≤ 'f')

/-- Character class `[0-9a-z]` with the `i` flag (case-insensitive). -/
def isAlnumCI (c : Char) : Bool :=
  c.isDigit || ('a' ≤ c && c ≤ 'z') || ('A' ≤ c && c ≤ 'Z')

/-- `/^[0-9a-f]+:I\[/.test(data)`. -/
def testModulePrefix (s : String) : Bool :=
  let p := s.data.span isHexLower
  !p.1.isEmpty && [':', 'I', '['].isPrefixOf p.2

/-- `data.includes('static/chunks/')`. -/
def includesStaticChunks (s : String) : Bool :=
  decide ("static/chunks/".data <:+: s.data)

/-- `/^[0-9a-z]+:\[/i.test(data)`. -/
def testComponentPrefix (s : String) : Bool :=
  let p := s.data.span isAlnumCI
  !p.1.isEmpty && [':', '['].isPrefixOf p.2

/-- `detectDataType` from `parser.ts`. -/
def detectDataType (data : String) : DataType :=
  if testModulePrefix data || includesStaticChunks data then .moduleLoading
  else if testComponentPrefix data then .componentData
  else .unknown

/-! ## Payload Decoder (`extractDataFromScript`) -/

def listIndexOfAux : List Char → List Char → Nat → Option Nat
  | [], pat, i => if pat.isEmpty then some i else none
  | c :: t, pat, i =>
    if pat.isPrefixOf (c :: t) then some i else listIndexOfAux t pat (i + 1)

/-- JavaScript `hay.indexOf(pat)` (as an `Option`). -/
def strIndexOf (hay pat : String) : Option Nat := listIndexOfAux hay.data pat.data 0

def listLastIndexOfAux : List Char → List Char → Nat → Option Nat
  | [], pat, i => if pat.isEmpty then some i else none
  | c :: t, pat, i =>
    match listLastIndexOfAux t pat (i + 1) with
    | some j => some j
    | none => if pat.isPrefixOf (c :: t) then some i else none

/-- JavaScript `hay.lastIndexOf(pat)` (as an `Option`). -/
def strLastIndexOf (hay pat : String) : Option Nat := listLastIndexOfAux hay.data pat.data 0

/-- JavaScript `s.substring(a, b)` for `a ≤ b`. -/
def substringChars (cs : List Char) (a b : Nat) : List Char := (cs.take b).drop a

/-- `content.replace(/\\n(?="\]$)/, '')`: because of the `$` anchor the only
possible match is the escaped newline four characters from the end. -/
def stripEscapedNlBeforeClose (cs : List Char) : List Char :=
  match cs.reverse with
  | ']' :: '"' :: 'n' :: '\\' :: t => (']' :: '"' :: t).reverse
  | _ => cs

/-- `content.replace(/\\n$/, '')`. -/
def stripEscapedNlEnd (cs : List Char) : List Char :=
  match cs.reverse with
  | 'n' :: '\\' :: t => t.reverse
  | _ => cs

/-- `extractDataFromScript` from `parser.ts`: locate the literal array
argument of the push call, clean the trailing escaped newline, decode as
JSON and return the re-serialized text; failures become `Except.error`
(the source throws and the caller catches). -/
def extractDataFromScript (scriptContent : String) : Except String String :=
  match strIndexOf scriptContent "self.__next_f.push([" with
  | none => .error "Invalid Next.js script format"
  | some startIndex =>
    let contentStart := startIndex + "self.__next_f.push([".length
    match strLastIndexOf scriptContent "])" with
    | none => .error "Invalid Next.js script format - mismatched brackets"
    | some contentEnd =>
      if contentEnd ≤ contentStart then
        .error "Invalid Next.js script format - mismatched brackets"
      else
        let content0 := '[' :: substringChars scriptContent.data contentStart contentEnd ++ [']']
        let content2 := stripEscapedNlEnd (stripEscapedNlBeforeClose content0)
        match jsonParse (String.mk content2) with
        | .error m => .error ("Unable to parse script content as JSON: " ++ m)
        | .ok v => .ok (jsonStringify v)

/-! ## Per-call pipeline (`parseScriptContentDetailed`) -/

/-- `ParseResult` from `parser.ts`. -/
structure ParseResult where
  success : Bool
  components : List ParsedComponent
  error : Option String := none
  dataType : Option DataType := none
  debugInfo : Option String := none

/-- Failure result produced by the top-level `try/catch`. -/
def catchResult (scriptContent : String) (msg : String) : ParseResult :=
  { success := false, components := [],
    error := some ("Parse failed: " ++ msg),
    debugInfo := some ("Input length: " ++ toString scriptContent.length
      ++ ", Error at parsing stage") }

/-- Failure result for a decoded value that is not an array of length ≥ 2. -/
def invalidStructureResult (parsedData : JVal) : ParseResult :=
  { success := false, components := [],
    error := some "Invalid data structure: Expected array with at least 2 elements",
    debugInfo := some (String.mk ((jsonStringify parsedData).data.take 100) ++ "...") }

/-- Step 3 of `parseScriptContentDetailed` for a string payload: classify it
and either return early (module-loading success, or a failed after-colon
parse) or produce the value handed to the Tree Builder. -/
def handleStringPayload (s : String) : Except ParseResult JVal :=
  let dt := detectDataType s
  if dt = .moduleLoading then
    .error { success := true, components := [], dataType := some .moduleLoading,
             debugInfo := some ("Data starts with: " ++ String.mk (s.data.take 50) ++ "...") }
  else if dt = .componentData ∧ s.data.contains ':' then
    let p := s.data.span (fun c => !(c = ':'))
    let dataAfterColon := String.mk p.2.tail
    match jsonParse dataAfterColon with
    | .ok v => .ok v
    | .error msg =>
      .error { success := false, components := [],
               error := some "Failed to parse component data structure",
               debugInfo := some ("Parse error: " ++ msg) }
  else if dt = .componentData then
    -- fallback: data might already be parsed or need no colon extraction
    match jsonParse s with
    | .ok v => .ok v
    | .error _ => .ok (.str s)
  else .ok (.str s)

/-- Step 4: hand the component data to the Tree Builder, always a
component-data success. -/
def step4 (componentData : JVal) : ParseResult :=
  { success := true, components := parseComponentStructure componentData,
    dataType := some .componentData }

/-- `parseScriptContentDetailed` from `parser.ts`: extract, decode, classify
and build; every failure is returned as data. -/
def parseScriptContentDetailed (scriptContent : String) : ParseResult :=
  match extractDataFromScript scriptContent with
  | .error msg => catchResult scriptContent msg
  | .ok cleanContent =>
    match jsonParse cleanContent with
    | .error msg => catchResult scriptContent msg
    | .ok parsedData =>
      match parsedData with
      | .arr l =>
        if l.length < 2 then invalidStructureResult parsedData
        else
          match l[1]?.getD JVal.null with
          | .str s =>
            (match handleStringPayload s with
             | .error r => r
             | .ok v => step4 v)
          | v => step4 v
      | _ => invalidStructureResult parsedData

/-! ## Bracket Matcher (`findMatchingBracket`) -/

/-- The scanning loop of `findMatchingBracket`: absolute position `i`,
current depth, and the active string-literal quote (if any). Inside a
literal, a backslash skips the following character unconditionally and only
the matching quote ends the literal; outside, quotes open literals and
brackets adjust the depth, returning the position where it reaches zero. -/
def fmbAux : List Char → Nat → Int → Option Char → Option Nat
  | [], _, _, _ => none
  | c :: rest, i, depth, some q =>
    if c = '\\' then
      match rest with
      | [] => none
      | _ :: rest2 => fmbAux rest2 (i + 2) depth (some q)
    else if c = q then fmbAux rest (i + 1) depth none
    else fmbAux rest (i + 1) depth (some q)
  | c :: rest, i, depth, none =>
    if c = '"' ∨ c = '\'' ∨ c = Char.ofNat 96 then fmbAux rest (i + 1) depth (some c)
    else if c = '[' then fmbAux rest (i + 1) (depth + 1) none
    else if c = ']' then
      if depth - 1 = 0 then some i else fmbAux rest (i + 1) (depth - 1) none
    else fmbAux rest (i + 1) depth none

/-- `findMatchingBracket` from `parser.ts` (`none` models the `-1` result). -/
def findMatchingBracket (content : List Char) (startIndex : Nat) : Option Nat :=
  fmbAux (content.drop startIndex) startIndex 0 none

/-! ## Call Extractor (`extractPushCalls`) -/

theorem listIndexOfAux_ge {l pat : List Char} {i j : Nat}
    (h : listIndexOfAux l pat i = some j) : i ≤ j := by
  induction l generalizing i with
  | nil =>
    simp only [listIndexOfAux] at h
    split at h
    · injection h with h
      omega
    · exact absurd h (by simp)
  | cons c t ih =>
    simp only [listIndexOfAux] at h
    split at h
    · injection h with h
      omega
    · have := ih h
      omega

theorem fmbAux_ge_aux : ∀ (n : Nat) (l : List Char), l.length ≤ n →
    ∀ (i j : Nat) (d : Int) (st : Option Char), fmbAux l i d st = some j → i ≤ j := by
  intro n
  induction n with
  | zero =>
    intro l hl i j d st h
    have : l = [] := List.length_eq_zero.mp (by omega)
    subst this
    simp [fmbAux] at h
  | succ m ih =>
    intro l hl i j d st h
    cases l with
    | nil => simp [fmbAux] at h
    | cons c rest =>
      cases st with
      | some q =>
        rw [fmbAux.eq_def] at h
        simp only [] at h
        split at h
        · cases rest with
          | nil => simp at h
          | cons c2 rest2 =>
            have := ih rest2 (by simp at hl ⊢; omega) (i + 2) j d (some q) h
            omega
        · split at h
          · have := ih rest (by simp at hl; omega) (i + 1) j d none h
            omega
          · have := ih rest (by simp at hl; omega) (i + 1) j d (some q) h
            omega
      | none =>
        rw [fmbAux.eq_def] at h
        simp only [] at h
        split at h
        · have := ih rest (by simp at hl; omega) (i + 1) j d (some c) h
          omega
        · split at h
          · have := ih rest (by simp at hl; omega) (i + 1) j (d + 1) none h
            omega
          · split at h
            · split at h
              · injection h with h
                omega
              · have := ih rest (by simp at hl; omega) (i + 1) j (d - 1) none h
                omega
            · have := ih rest (by simp at hl; omega) (i + 1) j d none h
              omega

theorem fmbAux_ge {l : List Char} {i j : Nat} {d : Int} {st : Option Char}
    (h : fmbAux l i d st = some j) : i ≤ j :=
  fmbAux_ge_aux l.length l le_rfl i j d st h

/-- Skip JavaScript whitespace starting at index `i`. -/
def skipSpacesFrom (cs : List Char) (i : Nat) : Nat :=
  i + ((cs.drop i).takeWhile jsIsSpace).length

theorem skipSpacesFrom_ge (cs : List Char) (i : Nat) : i ≤ skipSpacesFrom cs i := by
  simp [skipSpacesFrom]

/-- `s.trim()`. -/
def jsTrim (s : String) : String :=
  String.mk (((s.data.dropWhile jsIsSpace).reverse.dropWhile jsIsSpace).reverse)

/-- The invocation token `self.__next_f.push(`. -/
def pushTokenChars : List Char := "self.__next_f.push(".data

/-- The scanning loop of `extractPushCalls`: find the invocation token, skip
whitespace to the argument array, match its closing bracket, require `)`,
absorb an optional `;`, and collect the trimmed snippet; any failed check
resumes scanning further on. -/
def extractPushCallsAux (content : List Char) (searchIndex : Nat) : List String :=
  if hlt : searchIndex < content.length then
    match hs : listIndexOfAux (content.drop searchIndex) pushTokenChars searchIndex with
    | none => []
    | some start =>
      let cursor := skipSpacesFrom content (start + pushTokenChars.length)
      match content[cursor]? with
      | some '[' =>
        (match hb : findMatchingBracket content cursor with
         | none => extractPushCallsAux content (cursor + 1)
         | some arrayEnd =>
           let afterArray := skipSpacesFrom content (arrayEnd + 1)
           match content[afterArray]? with
           | some ')' =>
             let afterEnd := if content[afterArray + 1]? = some ';'
               then afterArray + 2 else afterArray + 1
             let snippet := jsTrim (String.mk ((content.drop start).take (afterEnd - start)))
             snippet :: extractPushCallsAux content afterEnd
           | _ => extractPushCallsAux content afterArray)
      | _ => extractPushCallsAux content (cursor + 1)
  else []
termination_by content.length - searchIndex
decreasing_by
  all_goals (
    first
      | (have h4 : cursor ≤ arrayEnd := fmbAux_ge hb
         have h5 := skipSpacesFrom_ge content (arrayEnd + 1))
      | skip
    have h1 := listIndexOfAux_ge hs
    have h2 := skipSpacesFrom_ge content (start + pushTokenChars.length)
    have h3 : 0 < pushTokenChars.length := by decide
    first
      | (split <;> omega)
      | omega)

/-- `extractPushCalls` from `parser.ts`. -/
def extractPushCalls (content : String) : List String :=
  extractPushCallsAux content.data 0

/-! ## Aggregator (`parseDocumentContent`) -/

/-- `IndexedParseResult` from `parser.ts`. -/
structure IndexedParseResult extends ParseResult where
  index : Nat
  snippetPreview : String

/-- `AggregatedParseResult` from `parser.ts`. -/
structure AggregatedParseResult where
  totalScripts : Nat
  successCount : Nat
  failureCount : Nat
  moduleLoadingCount : Nat
  results : List IndexedParseResult
  combinedComponents : List ParsedComponent

/-- `snippet.replace(/\s+/g, ' ')`: collapse whitespace runs to one space. -/
def collapseWsAux : List Char → Bool → List Char
  | [], _ => []
  | c :: t, prevSpace =>
    if jsIsSpace c then
      if prevSpace then collapseWsAux t true else ' ' :: collapseWsAux t true
    else c :: collapseWsAux t false

/-- The 120-character snippet preview. -/
def snippetPreview (snippet : String) : String :=
  String.mk ((collapseWsAux snippet.data false).take 120)

/-- One entry of the `results` sequence. -/
def mkIndexedResult (idx : Nat) (snippet : String) : IndexedParseResult :=
  { toParseResult := parseScriptContentDetailed snippet, index := idx,
    snippetPreview := snippetPreview snippet }

/-- `parseDocumentContent` from `parser.ts`. -/
def parseDocumentContent (content : String) : AggregatedParseResult :=
  let pushCalls := extractPushCalls content
  if pushCalls.length = 0 then
    { totalScripts := 0, successCount := 0, failureCount := 0, moduleLoadingCount := 0,
      results := [], combinedComponents := [] }
  else
    let results := pushCalls.enum.map (fun p => mkIndexedResult p.1 p.2)
    let combinedComponents :=
      (results.map (fun r => if r.success then r.components else [])).flatten
    let successCount := (results.filter (fun r =>
      r.success && decide (r.dataType = some .componentData))).length
    let moduleLoadingCount := (results.filter (fun r =>
      decide (r.dataType = some .moduleLoading))).length
    let failureCount := (results.filter (fun r => !r.success)).length
    { totalScripts := results.length, successCount := successCount,
      failureCount := failureCount, moduleLoadingCount := moduleLoadingCount,
      results := results, combinedComponents := combinedComponents }

/-! ## Formatter (`formatAsReadableJson`) -/

mutual
/-- The JSON view of a `ParsedComponent`, with keys in the insertion order
the source establishes: `type`, `component`, `props`, then `children` when
present. -/
def componentToJVal : ParsedComponent → JVal
  | .mk ty comp props children =>
    match children with
    | none => .obj [("type", .str ty), ("component", comp), ("props", .obj props)]
    | some cs => .obj [("type", .str ty), ("component", comp), ("props", .obj props),
        ("children", .arr (childListToJVal cs))]

def childListToJVal : List PCChild → List JVal
  | [] => []
  | .str s :: t => .str s :: childListToJVal t
  | .comp c :: t => componentToJVal c :: childListToJVal t
end

def componentListToJVal : List ParsedComponent → List JVal
  | [] => []
  | c :: t => componentToJVal c :: componentListToJVal t

/-- `formatAsReadableJson` from `parser.ts`:
`JSON.stringify(components, null, 2)`. -/
def formatAsReadableJson (components : List ParsedComponent) : String :=
  String.mk (renderPretty (.arr (componentListToJVal components)) 0)

/-! ## Invariants of the per-call pipeline -/

/-- Every early return of `handleStringPayload` is either a module-loading
success with no components and no error, or a failure with no data type and
an error message. -/
theorem hsp_error_fields {s : String} {r : ParseResult}
    (h : handleStringPayload s = .error r) :
    (r.success = true ∧ r.dataType = some .moduleLoading ∧ r.components = [] ∧
      r.error = none) ∨
    (r.success = false ∧ r.dataType = none ∧ r.components = [] ∧ r.error.isSome = true) := by
  simp only [handleStringPayload] at h
  by_cases h1 : detectDataType s = DataType.moduleLoading
  · rw [if_pos h1] at h
    injection h with h
    subst h
    left
    exact ⟨rfl, rfl, rfl, rfl⟩
  · rw [if_neg h1] at h
    by_cases h2 : detectDataType s = DataType.componentData ∧ s.data.contains ':' = true
    · rw [if_pos h2] at h
      split at h
      · exact absurd h (by simp)
      · injection h with h
        subst h
        right
        exact ⟨rfl, rfl, rfl, rfl⟩
    · rw [if_neg h2] at h
      by_cases h3 : detectDataType s = DataType.componentData
      · rw [if_pos h3] at h
        split at h <;> exact absurd h (by simp)
      · rw [if_neg h3] at h
        exact absurd h (by simp)

/-- Every result of `parseScriptContentDetailed` is a component-data success
with no error, a module-loading success with no error and no components, or
a failure with no data type and an error message. -/
theorem psd_cases (s : String) :
    ((parseScriptContentDetailed s).success = true ∧
      (parseScriptContentDetailed s).dataType = some .componentData ∧
      (parseScriptContentDetailed s).error = none) ∨
    ((parseScriptContentDetailed s).success = true ∧
      (parseScriptContentDetailed s).dataType = some .moduleLoading ∧
      (parseScriptContentDetailed s).error = none ∧
      (parseScriptContentDetailed s).components = []) ∨
    ((parseScriptContentDetailed s).success = false ∧
      (parseScriptContentDetailed s).dataType = none ∧
      (parseScriptContentDetailed s).error.isSome = true) := by
  unfold parseScriptContentDetailed
  split
  · right; right
    exact ⟨rfl, rfl, rfl⟩
  · split
    · right; right
      exact ⟨rfl, rfl, rfl⟩
    · split
      · split
        · right; right
          exact ⟨rfl, rfl, rfl⟩
        · split
          · split
            · rename_i r hr
              rcases hsp_error_fields hr with ⟨h1, h2, h3, h4⟩ | ⟨h1, h2, h3, h4⟩
              · right; left
                exact ⟨h1, h2, h4, h3⟩
              · right; right
                exact ⟨h1, h2, h4⟩
            · left
              exact ⟨rfl, rfl, rfl⟩
          · left
            exact ⟨rfl, rfl, rfl⟩
      · right; right
        exact ⟨rfl, rfl, rfl⟩

/-! ## Invariants of the aggregator -/

/-- The outcome sequence is the indexed per-snippet pipeline, in order. -/
theorem pdc_results_eq (content : String) :
    (parseDocumentContent content).results
      = (extractPushCalls content).enum.map (fun p => mkIndexedResult p.1 p.2) := by
  simp only [parseDocumentContent]
  split
  · rename_i hz
    have : extractPushCalls content = [] := List.length_eq_zero.mp hz
    rw [this]
    rfl
  · rfl

/-- The aggregate fields re-expressed over the outcome sequence. -/
theorem pdc_fields (content : String) :
    (parseDocumentContent content).totalScripts
        = (parseDocumentContent content).results.length ∧
    (parseDocumentContent content).successCount
        = ((parseDocumentContent content).results.filter (fun r =>
            r.success && decide (r.dataType = some DataType.componentData))).length ∧
    (parseDocumentContent content).moduleLoadingCount
        = ((parseDocumentContent content).results.filter (fun r =>
            decide (r.dataType = some DataType.moduleLoading))).length ∧
    (parseDocumentContent content).failureCount
        = ((parseDocumentContent content).results.filter (fun r => !r.success)).length ∧
    (parseDocumentContent content).combinedComponents
        = (((parseDocumentContent content).results.map (fun r =>
            if r.success then r.components else [])).flatten) := by
  simp only [parseDocumentContent]
  split
  · exact ⟨rfl, rfl, rfl, rfl, rfl⟩
  · exact ⟨rfl, rfl, rfl, rfl, rfl⟩

/-- The per-call invariant transported to every member of the outcome
sequence. -/
theorem results_invariant (content : String) :
    ∀ r ∈ (parseDocumentContent content).results,
      (r.success = true ∧ r.dataType = some DataType.componentData ∧ r.error = none) ∨
      (r.success = true ∧ r.dataType = some DataType.moduleLoading ∧ r.error = none ∧
        r.components = []) ∨
      (r.success = false ∧ r.dataType = none ∧ r.error.isSome = true) := by
  intro r hr
  rw [pdc_results_eq] at hr
  obtain ⟨p, -, hp⟩ := List.mem_map.mp hr
  subst hp
  exact psd_cases p.2

theorem combined_filter_eq : ∀ (l : List IndexedParseResult),
    (∀ r ∈ l, r.success = true →
      r.dataType = some DataType.componentData ∨ r.components = []) →
    (l.map (fun r => if r.success then r.components else [])).flatten
      = ((l.filter (fun r =>
          r.success && decide (r.dataType = some DataType.componentData))).map
          (fun r => r.components)).flatten := by
  intro l
  induction l with
  | nil => intro _; rfl
  | cons r t ih =>
    intro hinv
    have ihl := ih (fun x hx => hinv x (List.mem_cons_of_mem _ hx))
    by_cases hs : r.success = true
    · rcases hinv r (by simp) hs with hcd | hempty
      · simp [List.filter_cons, hs, hcd, ihl]
      · by_cases hcd : r.dataType = some DataType.componentData
        · simp [List.filter_cons, hs, hcd, ihl]
        · simp [List.filter_cons, hs, hcd, hempty, ihl]
    · simp only [Bool.not_eq_true] at hs
      simp [List.filter_cons, hs, ihl]

theorem length_filter_three {α : Type} (p1 p2 p3 : α → Bool) : ∀ (l : List α),
    (∀ x ∈ l, ((p1 x && !p2 x && !p3 x) || (!p1 x && p2 x && !p3 x)
      || (!p1 x && !p2 x && p3 x)) = true) →
    l.length = (l.filter p1).length + (l.filter p2).length + (l.filter p3).length := by
  intro l
  induction l with
  | nil => intro _; rfl
  | cons x t ih =>
    intro hinv
    have ihl := ih (fun y hy => hinv y (List.mem_cons_of_mem _ hy))
    have hx := hinv x (by simp)
    simp only [List.filter_cons, List.length_cons]
    cases h1 : p1 x <;> cases h2 : p2 x <;> cases h3 : p3 x <;>
      simp [h1, h2, h3] at hx ⊢ <;> omega

theorem ml_filter_eq : ∀ (l : List IndexedParseResult),
    (∀ r ∈ l, r.dataType = some DataType.moduleLoading → r.success = true) →
    (l.filter (fun r => decide (r.dataType = some DataType.moduleLoading))).length
      = (l.filter (fun r =>
          r.success && decide (r.dataType = some DataType.moduleLoading))).length := by
  intro l
  induction l with
  | nil => intro _; rfl
  | cons r t ih =>
    intro hinv
    have ihl := ih (fun x hx => hinv x (List.mem_cons_of_mem _ hx))
    by_cases hml : r.dataType = some DataType.moduleLoading
    · have hs := hinv r (by simp) hml
      simp [List.filter_cons, hml, hs, ihl]
    · simp [List.filter_cons, hml, ihl]

/-! ## Claims about the aggregator -/

/-- C1: for every input text, the `combinedComponents` sequence of the
aggregate result equals the concatenation, in call order, of the node
sequences of exactly the component-data successes; module-loading successes
always have an empty node sequence (and failures contribute no nodes). -/
theorem combinedComponents_spec (content : String) :
    (parseDocumentContent content).combinedComponents
      = (((parseDocumentContent content).results.filter (fun r =>
          r.success && decide (r.dataType = some DataType.componentData))).map
          (fun r => r.components)).flatten ∧
    ((parseDocumentContent content).results.all (fun r =>
      !(decide (r.dataType = some DataType.moduleLoading)) || r.components.isEmpty)) = true := by
  constructor
  · rw [(pdc_fields content).2.2.2.2]
    apply combined_filter_eq
    intro r hr hs
    rcases results_invariant content r hr with ⟨-, h2, -⟩ | ⟨-, -, -, h4⟩ | ⟨h1, -, -⟩
    · exact Or.inl h2
    · exact Or.inr h4
    · rw [hs] at h1
      exact absurd h1 (by simp)
  · rw [List.all_eq_true]
    intro r hr
    rcases results_invariant content r hr with ⟨-, h2, -⟩ | ⟨-, h2, -, h4⟩ | ⟨-, h2, -⟩
    · simp [h2]
    · simp [h2, h4]
    · simp [h2]

/-- C6: the counts of the aggregate result are consistent with a
re-derivation from the outcome sequence: total is the length, success and
module-loading counts are the numbers of successes with the respective tag,
failures are the non-successes, and the three partition the total. -/
theorem counts_spec (content : String) :
    (parseDocumentContent content).totalScripts
        = (parseDocumentContent content).results.length ∧
    (parseDocumentContent content).successCount
        = ((parseDocumentContent content).results.filter (fun r =>
            r.success && decide (r.dataType = some DataType.componentData))).length ∧
    (parseDocumentContent content).moduleLoadingCount
        = ((parseDocumentContent content).results.filter (fun r =>
            r.success && decide (r.dataType = some DataType.moduleLoading))).length ∧
    (parseDocumentContent content).failureCount
        = ((parseDocumentContent content).results.filter (fun r => !r.success)).length ∧
    (parseDocumentContent content).totalScripts
        = (parseDocumentContent content).successCount
          + (parseDocumentContent content).moduleLoadingCount
          + (parseDocumentContent content).failureCount := by
  obtain ⟨h1, h2, h3, h4, -⟩ := pdc_fields content
  have hinv := results_invariant content
  have hml : (parseDocumentContent content).moduleLoadingCount
      = ((parseDocumentContent content).results.filter (fun r =>
          r.success && decide (r.dataType = some DataType.moduleLoading))).length := by
    rw [h3]
    apply ml_filter_eq
    intro r hr hml2
    rcases hinv r hr with ⟨hs, -, -⟩ | ⟨hs, -, -, -⟩ | ⟨-, hdt, -⟩
    · exact hs
    · exact hs
    · rw [hml2] at hdt
      exact absurd hdt (by simp)
  refine ⟨h1, h2, hml, h4, ?_⟩
  rw [h1, h2, hml, h4]
  apply length_filter_three
  intro r hr
  rcases hinv r hr with ⟨hs, hdt, -⟩ | ⟨hs, hdt, -, -⟩ | ⟨hs, hdt, -⟩ <;>
    simp [hs, hdt]

/-- C7: the aggregator never raises (it is a total function): its outcome
sequence is exactly the per-snippet pipeline applied to each extracted call
independently, absence of calls yields the all-zero empty result, and every
failure outcome carries an error message. -/
theorem pipeline_total_spec (content : String) :
    (parseDocumentContent content).results
      = (extractPushCalls content).enum.map (fun p => mkIndexedResult p.1 p.2) ∧
    (extractPushCalls content = [] →
      parseDocumentContent content
        = { totalScripts := 0, successCount := 0, failureCount := 0,
            moduleLoadingCount := 0, results := [], combinedComponents := [] }) ∧
    ((parseDocumentContent content).results.all
      (fun r => r.success || r.error.isSome)) = true := by
  refine ⟨pdc_results_eq content, ?_, ?_⟩
  · intro hempty
    simp [parseDocumentContent, hempty]
  · rw [List.all_eq_true]
    intro r hr
    rcases results_invariant content r hr with ⟨hs, -, -⟩ | ⟨hs, -, -, -⟩ | ⟨-, -, herr⟩
    · simp [hs]
    · simp [hs]
    · simp [herr]

/-- Witness for C7 at a concrete input with no invocation token. -/
theorem pipeline_total_spec_witness :
    extractPushCalls "" = [] ∧
    parseDocumentContent ""
      = { totalScripts := 0, successCount := 0, failureCount := 0,
          moduleLoadingCount := 0, results := [], combinedComponents := [] } := by
  have h : extractPushCalls "" = [] := by
    simp [extractPushCalls, extractPushCallsAux]
  exact ⟨h, (pipeline_total_spec "").2.1 h⟩

/-! ## Claims about the Tree Builder -/

/-- The general-sequence rule of the specification, stated literally: each
string element becomes a text node; each sequence element is tried as an
element descriptor and otherwise recursively expanded with its nodes
flattened into the output; every other element is wrapped in a one-element
sequence and recursively expanded. -/
def claimExpandList : List JVal → List ParsedComponent
  | [] => []
  | x :: rest =>
    (match x with
     | .str s => [textNode s]
     | .arr il =>
       (match parseComponent il with
        | some c => [c]
        | none => parseComponentStructure (.arr il))
     | other => parseComponentStructure (.arr [other])) ++ claimExpandList rest

/-- A one-element wrap of a non-string, non-array value expands to nothing. -/
theorem parseComponentStructure_wrap_eq_nil :
    parseComponentStructure (.arr [.null]) = [] ∧
    (∀ b, parseComponentStructure (.arr [.bool b]) = []) ∧
    (∀ m e, parseComponentStructure (.arr [.num m e]) = []) ∧
    (∀ fs, parseComponentStructure (.arr [.obj fs]) = []) := by
  refine ⟨?_, ?_, ?_, ?_⟩ <;>
    (intros
     simp [parseComponentStructure, parseComponentStructureList, isTagMarker])

theorem parseComponentStructureList_eq_claim (l : List JVal) :
    parseComponentStructureList l = claimExpandList l := by
  induction l with
  | nil => simp [parseComponentStructureList, claimExpandList]
  | cons x rest ih =>
    cases x with
    | str s => simp [parseComponentStructureList, claimExpandList, ih]
    | arr il => simp only [parseComponentStructureList, claimExpandList, ih]
    | null =>
      simp only [parseComponentStructureList, claimExpandList, ih,
        parseComponentStructure_wrap_eq_nil.1]
    | bool b =>
      simp only [parseComponentStructureList, claimExpandList, ih,
        parseComponentStructure_wrap_eq_nil.2.1]
    | num m e =>
      simp only [parseComponentStructureList, claimExpandList, ih,
        parseComponentStructure_wrap_eq_nil.2.2.1]
    | obj fs =>
      simp only [parseComponentStructureList, claimExpandList, ih,
        parseComponentStructure_wrap_eq_nil.2.2.2]

/-- C2: on any sequence whose first element is not the tag marker `"$"`, the
Tree Builder behaves exactly as the specification's general-sequence rule
describes (wrapping-and-expanding a non-string, non-sequence element
produces no nodes, the same as the code's skipping it). -/
theorem parseComponentStructure_seq_spec (xs : List JVal)
    (h : isTagMarker xs.head? = false) :
    parseComponentStructure (.arr xs) = claimExpandList xs := by
  rw [parseComponentStructure, if_neg (by rw [h]; exact Bool.false_ne_true)]
  exact parseComponentStructureList_eq_claim xs

/-- Witness for C2 at a concrete sequence. -/
theorem parseComponentStructure_seq_spec_witness :
    parseComponentStructure (.arr [.str "a", .null, .num 1 0])
      = claimExpandList [.str "a", .null, .num 1 0] :=
  parseComponentStructure_seq_spec [.str "a", .null, .num 1 0] rfl

/-- C3 counterexample: an element descriptor whose property mapping contains
a `children` entry with the (falsy) value `null` keeps that entry in the
resulting properties — the claim that any `children` entry is always removed
fails. -/
theorem parseComponent_children_counterexample :
    (parseComponent [.str "$", .str "div", .null, .obj [("children", JVal.null)]]).map
      (fun c => (List.lookup "children" c.props, c.children.isSome))
      = some (some JVal.null, false) := by
  rw [parseComponent]
  simp [isTagMarker, propsValOf, spreadToProps, objInsert, JVal.truthy, List.lookup,
    ParsedComponent.props, ParsedComponent.children]

/-- No entry in a filtered-out key survives. -/
theorem lookup_eq_none_of_all {l : List (String × JVal)} {k : String}
    (h : ∀ p ∈ l, p.1 ≠ k) : List.lookup k l = none := by
  induction l with
  | nil => rfl
  | cons p t ih =>
    obtain ⟨k', v'⟩ := p
    have h1 : (k == k') = false :=
      beq_eq_false_iff_ne.mpr (fun he => h (k', v') (by simp) he.symm)
    simp only [List.lookup, h1]
    exact ih (fun q hq => h q (List.mem_cons_of_mem _ hq))

theorem lookup_filter_ne {props : List (String × JVal)} {k : String} :
    List.lookup k (props.filter (fun p => p.1 ≠ k)) = none := by
  refine lookup_eq_none_of_all (fun p hp => ?_)
  have := (List.mem_filter.mp hp).2
  exact of_decide_eq_true this

/-- C3 amended: when the decoded property mapping of an element descriptor
contains a `children` entry, that entry is consumed into the child sequence
(via the children rule) and removed from the properties exactly when its
value is truthy; when its value is falsy the property mapping survives
unchanged -- the entry stays -- and no child sequence is built. -/
theorem parseComponent_children_amended (componentArray : List JVal)
    (c : ParsedComponent) (ch : JVal)
    (hc : parseComponent componentArray = some c)
    (hch : List.lookup "children" (spreadToProps (propsValOf componentArray))
      = some ch) :
    (ch.truthy = true →
      c.children = some (parseChildren ch) ∧
      c.props = (spreadToProps (propsValOf componentArray)).filter
        (fun p => p.1 ≠ "children") ∧
      List.lookup "children" c.props = none) ∧
    (ch.truthy = false →
      c.children = none ∧
      c.props = spreadToProps (propsValOf componentArray) ∧
      List.lookup "children" c.props = some ch) := by
  rw [parseComponent] at hc
  split at hc
  · exact absurd hc (by simp)
  · simp only [] at hc
    split at hc
    · rename_i ch' hch'
      rw [hch] at hch'
      injection hch' with he
      subst he
      split at hc
      · rename_i htr
        injection hc with hc
        subst hc
        constructor
        · intro _
          exact ⟨rfl, rfl, lookup_filter_ne⟩
        · intro hf
          rw [htr] at hf
          exact absurd hf (by simp)
      · rename_i htr
        injection hc with hc
        subst hc
        constructor
        · intro ht
          exact absurd ht htr
        · intro _
          exact ⟨rfl, rfl, hch⟩
    · rename_i hnone
      rw [hch] at hnone
      exact absurd hnone (by simp)

/-- Witness for the amended C3: a falsy (`null`) `children` value survives in
the properties with no child sequence, and a truthy (`"x"`) one is consumed
into the child sequence and removed. -/
theorem parseComponent_children_amended_witness :
    ((ParsedComponent.mk "component" (JVal.str "div")
        [("children", JVal.null)] none).children = none ∧
      (ParsedComponent.mk "component" (JVal.str "div")
        [("children", JVal.null)] none).props
        = spreadToProps (propsValOf
            [.str "$", .str "div", .null, .obj [("children", JVal.null)]]) ∧
      List.lookup "children"
          (ParsedComponent.mk "component" (JVal.str "div")
            [("children", JVal.null)] none).props = some JVal.null) ∧
    ((ParsedComponent.mk "component" (JVal.str "span")
        [] (some (parseChildren (JVal.str "x")))).children
        = some (parseChildren (JVal.str "x")) ∧
      (ParsedComponent.mk "component" (JVal.str "span")
        [] (some (parseChildren (JVal.str "x")))).props
        = (spreadToProps (propsValOf
            [.str "$", .str "span", .null, .obj [("children", JVal.str "x")]])).filter
            (fun p => p.1 ≠ "children") ∧
      List.lookup "children"
          (ParsedComponent.mk "component" (JVal.str "span")
            [] (some (parseChildren (JVal.str "x")))).props = none) :=
  ⟨(parseComponent_children_amended
      [.str "$", .str "div", .null, .obj [("children", JVal.null)]]
      (.mk "component" (.str "div") [("children", JVal.null)] none) JVal.null
      (by rw [parseComponent]
          simp [isTagMarker, propsValOf, spreadToProps, objInsert, JVal.truthy, List.lookup])
      (by simp [propsValOf, spreadToProps, objInsert, List.lookup])).2 (by rfl),
   (parseComponent_children_amended
      [.str "$", .str "span", .null, .obj [("children", JVal.str "x")]]
      (.mk "component" (.str "span") [] (some (parseChildren (JVal.str "x")))) (JVal.str "x")
      (by rw [parseComponent]
          simp [isTagMarker, propsValOf, spreadToProps, objInsert, JVal.truthy, List.lookup])
      (by simp [propsValOf, spreadToProps, objInsert, List.lookup])).1 (by rfl)⟩

/-! ## Claims about the Payload Classifier -/

theorem isPrefixOf_eq_append {l₁ l₂ : List Char} (h : l₁.isPrefixOf l₂ = true) :
    ∃ t, l₂ = l₁ ++ t := by
  induction l₁ generalizing l₂ with
  | nil => exact ⟨l₂, rfl⟩
  | cons a r ih =>
    cases l₂ with
    | nil => exact absurd h (by simp [List.isPrefixOf])
    | cons b t₂ =>
      simp only [List.isPrefixOf, Bool.and_eq_true, beq_iff_eq] at h
      obtain ⟨rfl, h2⟩ := h
      obtain ⟨t, ht⟩ := ih h2
      exact ⟨t, by rw [List.cons_append, ht]⟩

theorem isPrefixOf_append_self (l₁ t : List Char) : l₁.isPrefixOf (l₁ ++ t) = true := by
  induction l₁ with
  | nil => simp [List.isPrefixOf]
  | cons a r ih => simp [List.isPrefixOf, ih]

/-- The spec's rule (a), stated literally: the string matches
the pattern `[0-9a-f]+:I[` at its start, or contains `static/chunks/`. -/
def specModuleLoadingShape (s : String) : Prop :=
  (∃ pre rest : List Char, pre ≠ [] ∧ (∀ c ∈ pre, isHexLower c = true) ∧
    s.data = pre ++ ':' :: 'I' :: '[' :: rest) ∨
  "static/chunks/".data <:+: s.data

/-- The spec's rule (b), stated literally: the string matches the pattern
`[0-9a-z]+:[` case-insensitively at its start. -/
def specComponentDataShape (s : String) : Prop :=
  ∃ pre rest : List Char, pre ≠ [] ∧ (∀ c ∈ pre, isAlnumCI c = true) ∧
    s.data = pre ++ ':' :: '[' :: rest

theorem testModulePrefix_iff (s : String) :
    testModulePrefix s = true ↔
      ∃ pre rest : List Char, pre ≠ [] ∧ (∀ c ∈ pre, isHexLower c = true) ∧
        s.data = pre ++ ':' :: 'I' :: '[' :: rest := by
  constructor
  · intro h
    simp only [testModulePrefix, Bool.and_eq_true, Bool.not_eq_true'] at h
    obtain ⟨h1, h2⟩ := h
    obtain ⟨t, ht⟩ := isPrefixOf_eq_append h2
    refine ⟨(s.data.span isHexLower).1, t, ?_, ?_, ?_⟩
    · intro he
      rw [he] at h1
      exact absurd h1 (by simp)
    · intro c hc
      rw [List.span_eq_take_drop] at hc
      exact List.mem_takeWhile_imp hc
    · rw [List.span_eq_take_drop] at ht ⊢
      show s.data = s.data.takeWhile isHexLower ++ ([':', 'I', '['] ++ t)
      rw [← ht, List.takeWhile_append_dropWhile]
  · rintro ⟨pre, rest, hne, hall, hs⟩
    simp only [testModulePrefix, hs]
    rw [span_append_of_all _ hall, span_of_head_not (fun c hc => by
      injection hc with hc
      subst hc
      rfl)]
    simp only [List.append_nil, Bool.and_eq_true, Bool.not_eq_true']
    exact ⟨by simpa using hne, isPrefixOf_append_self [':', 'I', '['] rest⟩

theorem testComponentPrefix_iff (s : String) :
    testComponentPrefix s = true ↔ specComponentDataShape s := by
  constructor
  · intro h
    simp only [testComponentPrefix, Bool.and_eq_true, Bool.not_eq_true'] at h
    obtain ⟨h1, h2⟩ := h
    obtain ⟨t, ht⟩ := isPrefixOf_eq_append h2
    refine ⟨(s.data.span isAlnumCI).1, t, ?_, ?_, ?_⟩
    · intro he
      rw [he] at h1
      exact absurd h1 (by simp)
    · intro c hc
      rw [List.span_eq_take_drop] at hc
      exact List.mem_takeWhile_imp hc
    · rw [List.span_eq_take_drop] at ht ⊢
      show s.data = s.data.takeWhile isAlnumCI ++ ([':', '['] ++ t)
      rw [← ht, List.takeWhile_append_dropWhile]
  · rintro ⟨pre, rest, hne, hall, hs⟩
    simp only [testComponentPrefix, hs]
    rw [span_append_of_all _ hall, span_of_head_not (fun c hc => by
      injection hc with hc
      subst hc
      rfl)]
    simp only [List.append_nil, Bool.and_eq_true, Bool.not_eq_true']
    exact ⟨by simpa using hne, isPrefixOf_append_self [':', '['] rest⟩

/-- C4: the classifier applies its rules in order — it answers module-loading
exactly when the string matches `[0-9a-f]+:I[` at its start or contains
`static/chunks/`; otherwise component-data exactly when the string matches
`[0-9a-z]+:[` case-insensitively at its start; otherwise unknown. -/
theorem detectDataType_spec (s : String) :
    (detectDataType s = .moduleLoading ↔ specModuleLoadingShape s) ∧
    (detectDataType s = .componentData ↔
      ¬ specModuleLoadingShape s ∧ specComponentDataShape s) ∧
    (detectDataType s = .unknown ↔
      ¬ specModuleLoadingShape s ∧ ¬ specComponentDataShape s) := by
  have hml : (testModulePrefix s || includesStaticChunks s) = true ↔
      specModuleLoadingShape s := by
    rw [Bool.or_eq_true, testModulePrefix_iff]
    simp [includesStaticChunks, specModuleLoadingShape]
  have hcd : testComponentPrefix s = true ↔ specComponentDataShape s :=
    testComponentPrefix_iff s
  by_cases h1 : (testModulePrefix s || includesStaticChunks s) = true
  · simp [detectDataType, h1, hml.mp h1]
  · have hnml : ¬ specModuleLoadingShape s := fun hc => h1 (hml.mpr hc)
    by_cases h2 : testComponentPrefix s = true
    · simp [detectDataType, h1, h2, hcd.mp h2, hnml]
    · have hncd : ¬ specComponentDataShape s := fun hc => h2 (hcd.mpr hc)
      simp [detectDataType, h1, h2, hnml, hncd]

/-! ## Claims about the Bracket Matcher -/

theorem fmbAux_string_mode (q : Char) (hq : ¬ q = '\\') (body rest : List Char) :
    ∀ i depth, body.all (fun c => !(c = q || c = '\\')) = true →
    fmbAux (body ++ q :: rest) i depth (some q)
      = fmbAux rest (i + (body.length + 1)) depth none := by
  induction body with
  | nil =>
    intro i depth _
    rw [List.nil_append, fmbAux.eq_def]
    simp [hq]
  | cons c t ih =>
    intro i depth hall
    simp only [List.all_cons, Bool.and_eq_true] at hall
    obtain ⟨hc, hrest⟩ := hall
    simp only [Bool.not_eq_true', Bool.or_eq_false_iff, decide_eq_false_iff_not] at hc
    rw [List.cons_append, fmbAux.eq_def]
    simp only [if_neg hc.2, if_neg hc.1]
    rw [ih (i + 1) depth hrest]
    have h2 : i + 1 + (t.length + 1) = i + ((c :: t).length + 1) := by
      simp only [List.length_cons]
      omega
    rw [h2]

theorem fmbAux_char_aux : ∀ (n : Nat) (l : List Char), l.length ≤ n →
    ∀ (i j : Nat) (d : Int) (st : Option Char), fmbAux l i d st = some j →
      l[j - i]? = some ']' := by
  intro n
  induction n with
  | zero =>
    intro l hl i j d st h
    have : l = [] := List.length_eq_zero.mp (by omega)
    subst this
    simp [fmbAux] at h
  | succ m ih =>
    intro l hl i j d st h
    cases l with
    | nil => simp [fmbAux] at h
    | cons c rest =>
      cases st with
      | some q =>
        rw [fmbAux.eq_def] at h
        simp only [] at h
        split at h
        · cases rest with
          | nil => simp at h
          | cons c2 rest2 =>
            have hge := fmbAux_ge h
            have hr := ih rest2 (by simp at hl ⊢; omega) (i + 2) j d (some q) h
            have hji : j - i = (j - (i + 2)) + 2 := by omega
            rw [hji, List.getElem?_cons_succ, List.getElem?_cons_succ]
            exact hr
        · split at h
          · have hge := fmbAux_ge h
            have hr := ih rest (by simp at hl; omega) (i + 1) j d none h
            have hji : j - i = (j - (i + 1)) + 1 := by omega
            rw [hji, List.getElem?_cons_succ]
            exact hr
          · have hge := fmbAux_ge h
            have hr := ih rest (by simp at hl; omega) (i + 1) j d (some q) h
            have hji : j - i = (j - (i + 1)) + 1 := by omega
            rw [hji, List.getElem?_cons_succ]
            exact hr
      | none =>
        rw [fmbAux.eq_def] at h
        simp only [] at h
        split at h
        · have hge := fmbAux_ge h
          have hr := ih rest (by simp at hl; omega) (i + 1) j (d) (some c) h
          have hji : j - i = (j - (i + 1)) + 1 := by omega
          rw [hji, List.getElem?_cons_succ]
          exact hr
        · split at h
          · have hge := fmbAux_ge h
            have hr := ih rest (by simp at hl; omega) (i + 1) j (d + 1) none h
            have hji : j - i = (j - (i + 1)) + 1 := by omega
            rw [hji, List.getElem?_cons_succ]
            exact hr
          · split at h
            · rename_i hq hbr hcl
              split at h
              · injection h with h
                rw [← h, Nat.sub_self, List.getElem?_cons_zero, hcl]
              · have hge := fmbAux_ge h
                have hr := ih rest (by simp at hl; omega) (i + 1) j (d - 1) none h
                have hji : j - i = (j - (i + 1)) + 1 := by omega
                rw [hji, List.getElem?_cons_succ]
                exact hr
            · have hge := fmbAux_ge h
              have hr := ih rest (by simp at hl; omega) (i + 1) j d none h
              have hji : j - i = (j - (i + 1)) + 1 := by omega
              rw [hji, List.getElem?_cons_succ]
              exact hr

/-- C5: the bracket matcher ignores brackets inside quoted string literals --
scanning a literal opened by a double quote, single quote or backtick whose
body is free of the closing quote and of backslashes just steps past it,
whatever brackets the body holds; inside a literal, a backslash
unconditionally skips the following character; and any reported match is a
genuine closing bracket at or after the start index (`none` models the
NotFound result `-1` of the source). -/
theorem findMatchingBracket_spec :
    (∀ q body rest i depth, (q = '"' ∨ q = '\'' ∨ q = Char.ofNat 96) →
      body.all (fun c => !(c = q || c = '\\')) = true →
      fmbAux (q :: (body ++ q :: rest)) i depth none
        = fmbAux rest (i + (body.length + 2)) depth none) ∧
    (∀ q c rest i depth,
      fmbAux ('\\' :: c :: rest) i depth (some q)
        = fmbAux rest (i + 2) depth (some q)) ∧
    (∀ content startIndex j,
      findMatchingBracket content startIndex = some j →
      startIndex ≤ j ∧ content[j]? = some ']') := by
  refine ⟨?_, ?_, ?_⟩
  · intro q body rest i depth hq hbody
    have hq2 : ¬ q = '\\' := by rcases hq with rfl | rfl | rfl <;> decide
    rw [fmbAux.eq_def]
    simp only [if_pos hq]
    rw [fmbAux_string_mode q hq2 body rest (i + 1) depth hbody]
    have h2 : i + 1 + (body.length + 1) = i + (body.length + 2) := by omega
    rw [h2]
  · intro q c rest i depth
    rw [fmbAux.eq_def]
    simp
  · intro content startIndex j h
    rw [findMatchingBracket] at h
    have hge := fmbAux_ge h
    refine ⟨hge, ?_⟩
    have hch := fmbAux_char_aux (content.drop startIndex).length _ (le_refl _)
      startIndex j 0 none h
    rw [List.getElem?_drop] at hch
    have h2 : startIndex + (j - startIndex) = j := by omega
    rw [h2] at hch
    exact hch

/-- Witness for C5 at a concrete literal and a concrete match. -/
theorem findMatchingBracket_spec_witness :
    fmbAux ('"' :: (['[', ')'] ++ '"' :: [']'])) 0 1 none
        = fmbAux [']'] (0 + (2 + 2)) 1 none ∧
    (0 ≤ 10 ∧ "[1,\"a]b\",2]x".data[10]? = some ']') :=
  ⟨findMatchingBracket_spec.1 '"' ['[', ')'] [']'] 0 1 (Or.inl rfl) (by decide),
   findMatchingBracket_spec.2.2 "[1,\"a]b\",2]x".data 0 10 (by rfl)⟩

/-! ## Claims about the per-call pipeline on unknown string payloads -/

theorem jsonParse_eq_of_parseVal (s : String) (v : JVal)
    (h : parseVal (3 * s.data.length + 9) s.data = some (v, [])) :
    jsonParse s = .ok v := by
  rw [jsonParse, h]
  rfl

/-- The decoder on the sample payload `[1,"hello"]`. -/
theorem jsonParse_helloSample :
    jsonParse "[1,\"hello\"]" = Except.ok (JVal.arr [JVal.num 1 0, JVal.str "hello"]) := by
  have hstr : parseStrChars ['h', 'e', 'l', 'l', 'o', '"', ']']
      = some (['h', 'e', 'l', 'l', 'o'], [']']) :=
    parseStrChars_render ['h', 'e', 'l', 'l', 'o'] [']']
  have h38 : parseVal 38 ['"', 'h', 'e', 'l', 'l', 'o', '"', ']']
      = some (JVal.str "hello", [']']) := by
    rw [show parseVal 38 ['"', 'h', 'e', 'l', 'l', 'o', '"', ']']
        = (parseStrChars ['h', 'e', 'l', 'l', 'o', '"', ']']).map
            (fun p => (JVal.str (String.mk p.1), p.2)) from rfl, hstr]
    rfl
  refine jsonParse_eq_of_parseVal _ _ ?_
  rw [show parseVal (3 * ("[1,\"hello\"]" : String).data.length + 9)
        ("[1,\"hello\"]" : String).data
      = parseArrLoop 39 ['"', 'h', 'e', 'l', 'l', 'o', '"', ']'] [JVal.num 1 0] from rfl,
    parseArrLoop, h38]
  rfl

/-- The extractor on the sample snippet. -/
theorem extractData_helloSample :
    extractDataFromScript "self.__next_f.push([1,\"hello\"])" = .ok "[1,\"hello\"]" := by
  rw [show extractDataFromScript "self.__next_f.push([1,\"hello\"])"
      = (match jsonParse (String.mk ['[', '1', ',', '"', 'h', 'e', 'l', 'l', 'o', '"', ']']) with
         | .error m => Except.error ("Unable to parse script content as JSON: " ++ m)
         | .ok v => Except.ok (jsonStringify v)) from rfl]
  rw [show jsonParse (String.mk ['[', '1', ',', '"', 'h', 'e', 'l', 'l', 'o', '"', ']'])
      = Except.ok (JVal.arr [JVal.num 1 0, JVal.str "hello"]) from jsonParse_helloSample]
  rfl

/-- C9: when the decoder yields a two-element sequence whose second element
is a string the classifier marks unknown, the call succeeds as
component-data and its node sequence is exactly one text node carrying the
raw payload string. -/
theorem unknownPayload_spec (snippet clean : String) (idv : JVal) (s : String)
    (h1 : extractDataFromScript snippet = .ok clean)
    (h2 : jsonParse clean = .ok (.arr [idv, .str s]))
    (h3 : detectDataType s = .unknown) :
    parseScriptContentDetailed snippet =
      { success := true, components := [textNode s],
        dataType := some DataType.componentData } := by
  rw [parseScriptContentDetailed, h1]
  simp only []
  rw [h2]
  simp only [List.length_cons, List.length_nil]
  rw [if_neg (by omega)]
  simp only [List.getElem?_cons_succ, List.getElem?_cons_zero, Option.getD_some]
  rw [handleStringPayload]
  simp only [h3]
  rw [if_neg (by simp), if_neg (by simp), if_neg (by simp)]
  simp only [step4, parseComponentStructure]

/-- Witness for C9 at a concrete snippet with payload `"hello"`. -/
theorem unknownPayload_spec_witness :
    parseScriptContentDetailed "self.__next_f.push([1,\"hello\"])" =
      { success := true, components := [textNode "hello"],
        dataType := some DataType.componentData } :=
  unknownPayload_spec "self.__next_f.push([1,\"hello\"])" "[1,\"hello\"]"
    (.num 1 0) "hello" extractData_helloSample jsonParse_helloSample (by rfl)

/-! ## Claims about the component-data fallback branch -/

/-- The string-payload step with the fallback branch removed: a component-data
payload is always handled by colon extraction. -/
def handleStringPayloadNoFallback (s : String) : Except ParseResult JVal :=
  let dt := detectDataType s
  if dt = .moduleLoading then
    .error { success := true, components := [], dataType := some .moduleLoading,
             debugInfo := some ("Data starts with: " ++ String.mk (s.data.take 50) ++ "...") }
  else if dt = .componentData ∧ s.data.contains ':' then
    let p := s.data.span (fun c => !(c = ':'))
    let dataAfterColon := String.mk p.2.tail
    match jsonParse dataAfterColon with
    | .ok v => .ok v
    | .error msg =>
      .error { success := false, components := [],
               error := some "Failed to parse component data structure",
               debugInfo := some ("Parse error: " ++ msg) }
  else .ok (.str s)

theorem detectDataType_componentData_contains {s : String}
    (h : detectDataType s = .componentData) : s.data.contains ':' = true := by
  rw [detectDataType] at h
  by_cases h1 : (testModulePrefix s || includesStaticChunks s) = true
  · rw [if_pos h1] at h
    exact absurd h (by simp)
  · rw [if_neg h1] at h
    by_cases h2 : testComponentPrefix s = true
    · obtain ⟨pre, rest, hne, hall, hs⟩ := (testComponentPrefix_iff s).mp h2
      rw [hs]
      have hm : ':' ∈ pre ++ ':' :: '[' :: rest := by simp
      simpa using hm
    · rw [if_neg h2] at h
      exact absurd h (by simp)

/-- C10: a payload the classifier marks component-data always contains a
colon, so the per-call pipeline behaves exactly as if its no-colon fallback
branch (re-parsing the string unmodified) were absent -- the branch is
unreachable. -/
theorem componentData_colon_spec (s : String) :
    (detectDataType s = .componentData → s.data.contains ':' = true) ∧
    handleStringPayload s = handleStringPayloadNoFallback s := by
  refine ⟨fun h => detectDataType_componentData_contains h, ?_⟩
  cases hdt : detectDataType s with
  | moduleLoading => simp [handleStringPayload, handleStringPayloadNoFallback, hdt]
  | componentData =>
    have hc := detectDataType_componentData_contains hdt
    have hm : ':' ∈ s.data := by simpa using hc
    simp [handleStringPayload, handleStringPayloadNoFallback, hdt, hm]
  | unknown => simp [handleStringPayload, handleStringPayloadNoFallback, hdt]

/-- Witness for C10 at the concrete component-data payload "1:[]". -/
theorem componentData_colon_spec_witness :
    ("1:[]" : String).data.contains ':' = true ∧
    handleStringPayload "1:[]" = handleStringPayloadNoFallback "1:[]" :=
  ⟨(componentData_colon_spec "1:[]").1 (by rfl), (componentData_colon_spec "1:[]").2⟩

/-! ## Claims about the JSON formatter -/

/-- C8: the readable-JSON formatter round-trips -- parsing its output yields
exactly the JSON view of the original node sequence, field for field (the
hypothesis states that every object in that view has distinct keys, which
every value of the source's record types has). -/
theorem formatAsReadableJson_roundTrip (components : List ParsedComponent)
    (h : wfJVal (.arr (componentListToJVal components)) = true) :
    jsonParse (formatAsReadableJson components)
      = .ok (.arr (componentListToJVal components)) := by
  rw [formatAsReadableJson]
  exact jsonParse_renderPretty _ h

/-- Witness for C8 at a one-text-node sequence. -/
theorem formatAsReadableJson_roundTrip_witness :
    wfJVal (.arr (componentListToJVal [textNode "hi"])) = true ∧
    jsonParse (formatAsReadableJson [textNode "hi"])
      = .ok (.arr (componentListToJVal [textNode "hi"])) := by
  have hwf : wfJVal (.arr (componentListToJVal [textNode "hi"])) = true := by
    simp [wfJVal, wfJList, wfJFields, componentListToJVal, componentToJVal,
      childListToJVal, textNode]
  exact ⟨hwf, formatAsReadableJson_roundTrip [textNode "hi"] hwf⟩

end NextJS
